import Mathlib

/-!
Verification development for the N×N sliding-tile puzzle implemented in
`src/components/PuzzleGame.tsx`.  The board is a row-major list of tile
labels `1 .. N²`, where the label `N²` (`EMPTY = size * size` in the source)
is the blank.  All definitions below are shallow embeddings of the
TypeScript functions of the same (or closely corresponding) name.
JavaScript arrays become `List Nat`, JS string keys (`state.join(',')`,
a bijective encoding of the array) are modelled by the state list itself,
JS `Map`/`Set` become association lists / membership lists, and the
wall-clock timeout test executed at each loop iteration is modelled by an
oracle `timedOut : Nat → Bool` consulted at the iteration counter.
-/

namespace Puzzle8

/-- Shallow embedding of `generateNeighbors` (PuzzleGame.tsx): the list of
grid-adjacent cell indices of cell `i` on a `size × size` board, in the
source's order left, right, up, down. -/
def generateNeighbors (size i : Nat) : List Nat :=
  let row := i / size
  let col := i % size
  (if 0 < col then [i - 1] else []) ++
  (if col < size - 1 then [i + 1] else []) ++
  (if 0 < row then [i - size] else []) ++
  (if row < size - 1 then [i + size] else [])

/-- Number of inverted pairs of a list: pairs `i < j` with `l[i] > l[j]`,
written as a head recursion (the head contributes one inversion for every
later element smaller than it, exactly the source's nested loops). -/
def inversions : List Nat → Nat
  | [] => 0
  | a :: rest => rest.countP (fun b => decide (b < a)) + inversions rest

/-- Shallow embedding of `countInversions` (PuzzleGame.tsx): inversions of
the board with the blank label filtered out. -/
def countInversions (arr : List Nat) (empty : Nat) : Nat :=
  inversions (arr.filter (fun x => decide (x ≠ empty)))

/-- First index of `a` in the list; `none` when absent (JS `indexOf`
returns `-1` when absent, wrapped below where the sign matters). -/
def listIndexOf (a : Nat) : List Nat → Option Nat
  | [] => none
  | b :: rest =>
    if b = a then some 0
    else match listIndexOf a rest with
      | some i => some (i + 1)
      | none => none

/-- Index of the blank (`EMPTY = size * size`) in a board state.  Every
board handled by the game contains the blank, in which case this agrees
with JS `indexOf`; an absent blank is mapped to the list length. -/
def blankIdx (size : Nat) (s : List Nat) : Nat :=
  match listIndexOf (size * size) s with
  | some i => i
  | none => s.length

/-- Shallow embedding of `isSolvable` (PuzzleGame.tsx).  Odd sizes: the
inversion count must be even.  Even sizes: `inversions + (size - emptyRow)`
must be odd, where `emptyRow = Math.floor(arr.indexOf(empty) / size)`;
the JS `indexOf` value `-1` for an absent blank is modelled exactly by the
`none` branch. -/
def isSolvable (arr : List Nat) (empty size : Nat) : Bool :=
  let invs := countInversions arr empty
  if size % 2 = 1 then
    decide (invs % 2 = 0)
  else
    let idx : Int := match listIndexOf empty arr with
      | some i => (i : Int)
      | none => -1
    let emptyRow : Int := Int.fdiv idx (size : Int)
    let emptyFromBottom : Int := (size : Int) - emptyRow
    decide (((invs : Int) + emptyFromBottom) % 2 = 1)

/-- The goal arrangement `[1, 2, …, size²]` (`target` in the source; the
last cell holds the blank label `size²`). -/
def goalState (size : Nat) : List Nat :=
  (List.range (size * size)).map (fun i => i + 1)

/-- The successor state produced inside both A* loops and by every tile
move: the cell `nextIdx` slides into the blank cell `emptyIdx`
(`newState[emptyIdx] = newState[nextIdx]; newState[nextIdx] = EMPTY`). -/
def succState (size : Nat) (s : List Nat) (emptyIdx nextIdx : Nat) : List Nat :=
  (s.set emptyIdx (s.getD nextIdx 0)).set nextIdx (size * size)

/-- Manhattan distance of the tile labelled `v` sitting at cell `i` from
its goal cell `v - 1`. -/
def tileDist (size i v : Nat) : Nat :=
  let t := v - 1
  (Int.ofNat (i / size) - Int.ofNat (t / size)).natAbs +
    (Int.ofNat (i % size) - Int.ofNat (t % size)).natAbs

/-- The Manhattan-distance part shared by both heuristics: sum of
`tileDist` over every non-blank cell (the source iterates `i` over
`s.length`). -/
def manhattanPart (size : Nat) (s : List Nat) : Nat :=
  ((List.range s.length).map (fun i =>
    let v := s.getD i 0
    if v = size * size then 0 else tileDist size i v)).sum

/-- Penalty contributed by the ordered cell pair `(col1, col2)` of `row`
in the row linear-conflict scan: 2 when both tiles belong to `row` and
their goal columns are inverted, else 0. -/
def rowPairPenalty (size : Nat) (s : List Nat) (row col1 col2 : Nat) : Nat :=
  let val1 := s.getD (row * size + col1) 0
  let val2 := s.getD (row * size + col2) 0
  if val1 = size * size then 0
  else if (val1 - 1) / size ≠ row then 0
  else if val2 = size * size then 0
  else if (val2 - 1) / size ≠ row then 0
  else if (val2 - 1) % size < (val1 - 1) % size then 2
  else 0

/-- Row linear-conflict scan: `col1` ranges over `[0, col1max)` (the
hint's heuristic uses `col1max = size - 1`, `calculateMinMoves` uses
`col1max = size`; both inner loops run `col2` from `col1 + 1` to
`size - 1`). -/
def rowConflicts (size : Nat) (s : List Nat) (col1max : Nat) : Nat :=
  ((List.range size).map (fun row =>
    ((List.range col1max).map (fun col1 =>
      ((List.range' (col1 + 1) (size - (col1 + 1))).map (fun col2 =>
        rowPairPenalty size s row col1 col2)).sum)).sum)).sum

/-- Penalty contributed by the ordered cell pair `(row1, row2)` of `col`
in the column linear-conflict scan of `calculateMinMoves`. -/
def colPairPenalty (size : Nat) (s : List Nat) (col row1 row2 : Nat) : Nat :=
  let val1 := s.getD (row1 * size + col) 0
  let val2 := s.getD (row2 * size + col) 0
  if val1 = size * size then 0
  else if (val1 - 1) % size ≠ col then 0
  else if val2 = size * size then 0
  else if (val2 - 1) % size ≠ col then 0
  else if (val2 - 1) / size < (val1 - 1) / size then 2
  else 0

/-- Column linear-conflict scan of the `calculateMinMoves` heuristic. -/
def colConflicts (size : Nat) (s : List Nat) : Nat :=
  ((List.range size).map (fun col =>
    ((List.range size).map (fun row1 =>
      ((List.range' (row1 + 1) (size - (row1 + 1))).map (fun row2 =>
        colPairPenalty size s col row1 row2)).sum)).sum)).sum

/-- The heuristic defined inside `getHint`: Manhattan distance plus the
row linear-conflict scan only (its `col1` loop stops at `size - 1`). -/
def heuristicHint (size : Nat) (s : List Nat) : Nat :=
  manhattanPart size s + rowConflicts size s (size - 1)

/-- The heuristic defined inside `calculateMinMoves`: Manhattan distance
plus row and column linear-conflict scans. -/
def heuristicMin (size : Nat) (s : List Nat) : Nat :=
  manhattanPart size s + rowConflicts size s size + colConflicts size s

/-- The four arrow glyphs set by `showHintArrowByIndex`. -/
inductive HintDirection where
  /-- the glyph `→` -/
  | right
  /-- the glyph `←` -/
  | left
  /-- the glyph `↓` -/
  | down
  /-- the glyph `↑` -/
  | up
deriving DecidableEq, Repr

/-- Direction computation of `showHintArrowByIndex` (PuzzleGame.tsx):
`delta = emptyIdx - fromIndex`; `1 → →`, `-1 → ←`, `size → ↓`,
`-size → ↑`, anything else keeps the initial `→`. -/
def showHintArrowDirection (size emptyIdx fromIndex : Nat) : HintDirection :=
  let delta : Int := (emptyIdx : Int) - (fromIndex : Int)
  if delta = 1 then .right
  else if delta = -1 then .left
  else if delta = (size : Int) then .down
  else if delta = -(size : Int) then .up
  else .right

/-- Shallow embedding of `getTimeLimit` (milliseconds per puzzle size). -/
def getTimeLimit (size : Nat) : Int :=
  if size = 3 then 2 * 60 * 1000
  else if size = 4 then 3 * 60 * 1000
  else if size = 5 then 5 * 60 * 1000
  else 10 * 60 * 1000

/-- Result record of `calculateScore`. -/
structure ScoreBreakdown where
  totalScore : Int
  moveScore : Int
  timeScore : Int
  hintPenalty : Int
  minMoves : Int
  actualMoves : Int
  timeLimit : Int
  actualTime : Int
deriving Repr

/-- Shallow embedding of `calculateScore` (PuzzleGame.tsx).  JS
`Math.floor(x / 10000)` on the (nonnegative in context, but modelled
exactly) quantities is floor division `Int.fdiv`. -/
def calculateScore (size : Nat) (minMoves actualMoves actualTime hintsUsed : Int) :
    ScoreBreakdown :=
  let timeLimit := getTimeLimit size
  let moveScore : Int :=
    if minMoves = -1 then
      let estimatedPenalty := Int.fdiv actualTime 10000
      max 30 (70 - estimatedPenalty)
    else
      let moveExcess := max 0 (actualMoves - minMoves)
      max 0 (70 - moveExcess)
  let timeExcess := max 0 (actualTime - timeLimit)
  let timeDeduction := Int.fdiv timeExcess 10000
  let timeScore := max 0 (30 - timeDeduction)
  let hintPenalty := hintsUsed * 2
  let totalScore := max 0 (min 100 (moveScore + timeScore - hintPenalty))
  { totalScore := totalScore, moveScore := moveScore, timeScore := timeScore,
    hintPenalty := hintPenalty, minMoves := minMoves, actualMoves := actualMoves,
    timeLimit := timeLimit, actualTime := actualTime }

/-! ## The A* search engine

Both searches keep an `open` list of nodes, a `gScore` map, and a `closed`
set.  A node stores the state (standing in for its bijective string key),
`f` and `g`.  `extractMin` mirrors the source's scan for the first index
with strictly smaller `f` followed by `splice`: it removes that node and
keeps the remaining nodes in their original order. -/

/-- A search node (`{ key, state, f, g }` in the source; the string key is
the bijective join-encoding of `state` and is represented by `state`
itself). -/
structure SearchNode where
  state : List Nat
  f : Nat
  g : Nat
deriving Repr

/-- Removes the open node the source selects: the scan
`if (open[i].f < open[bestIdx].f) bestIdx = i` keeps the earliest node
with minimal `f`; `splice` preserves the order of the rest. -/
def extractMin (best : SearchNode) : List SearchNode → SearchNode × List SearchNode
  | [] => (best, [])
  | n :: rest =>
    if n.f < best.f then
      let (m, l) := extractMin n rest
      (m, best :: l)
    else
      let (m, l) := extractMin best rest
      (m, n :: l)

/-- `gScore` association list; `gSet` prepends, and `gFind` returns the
most recent binding, giving JS `Map.set`/`Map.get` semantics. -/
def gFind (m : List (List Nat × Nat)) (k : List Nat) : Option Nat :=
  match m with
  | [] => none
  | (k', v) :: rest => if k' = k then some v else gFind rest k

/-- Insert-or-overwrite for the `gScore` map. -/
def gSet (m : List (List Nat × Nat)) (k : List Nat) (v : Nat) :
    List (List Nat × Nat) :=
  (k, v) :: m

/-- How one invocation of the `calculateMinMoves` search loop ends:
popping the goal with path cost `g`, the wall-clock timeout firing, the
explored-node cap being reached, or the open list running dry. -/
inductive SearchOutcome where
  | found (g : Nat)
  | timeout
  | capReached
  | openExhausted
deriving DecidableEq, Repr

/-- Successor processing of `calculateMinMoves` for a single neighbour
index `nextIdx`: skip states in `closed`; otherwise relax `gScore` and
either overwrite the state's open entry in place (`open[existingIdx] = …`)
or push a fresh node. -/
def relaxCalc (size : Nat) (closed : List (List Nat)) (curState : List Nat)
    (curG emptyIdx : Nat) (acc : List SearchNode × List (List Nat × Nat))
    (nextIdx : Nat) : List SearchNode × List (List Nat × Nat) :=
  let newState := succState size curState emptyIdx nextIdx
  if newState ∈ closed then acc
  else
    let newG := curG + 1
    let doUpdate := match gFind acc.2 newState with
      | none => true
      | some existingG => decide (newG < existingG)
    if doUpdate then
      let newH := heuristicMin size newState
      let node : SearchNode := ⟨newState, newG + newH, newG⟩
      let gScore := gSet acc.2 newState newG
      match acc.1.findIdx? (fun n => n.state == newState) with
      | some i => (acc.1.set i node, gScore)
      | none => (acc.1 ++ [node], gScore)
    else acc

/-- The `while` loop of `calculateMinMoves`.  `fuel` counts the node
expansions still allowed (`maxNodes - explored`), `iter` the expansions
done so far; `timedOut iter` models the `Date.now()` deadline test at the
top of iteration `iter`. -/
def minMovesLoop (size : Nat) (goal : List Nat) (timedOut : Nat → Bool) :
    Nat → List SearchNode → List (List Nat × Nat) → List (List Nat) → Nat →
    SearchOutcome
  | 0, openL, _, _, _ => if openL.isEmpty then .openExhausted else .capReached
  | fuel + 1, openL, gScore, closed, iter =>
    match openL with
    | [] => .openExhausted
    | first :: rest =>
      if timedOut iter then .timeout
      else
        let (current, openL') := extractMin first rest
        if current.state = goal then .found current.g
        else
          let closed' := current.state :: closed
          let emptyIdx := blankIdx size current.state
          let moveOptions := generateNeighbors size emptyIdx
          let next := moveOptions.foldl
            (relaxCalc size closed' current.state current.g emptyIdx)
            (openL', gScore)
          minMovesLoop size goal timedOut fuel next.1 next.2 closed' (iter + 1)

/-- Node cap of `calculateMinMoves` per puzzle size. -/
def minMovesMaxNodes (size : Nat) : Nat :=
  if size = 3 then 100000 else if size = 4 then 80000 else 50000

/-- The full `calculateMinMoves` search, with its outcome kept abstract
(the source logs the distinct causes before collapsing them to `-1`). -/
def calculateMinMovesOutcome (size : Nat) (timedOut : Nat → Bool)
    (startState : List Nat) : SearchOutcome :=
  let goal := goalState size
  if startState = goal then .found 0
  else
    let startH := heuristicMin size startState
    minMovesLoop size goal timedOut (minMovesMaxNodes size)
      [⟨startState, startH, 0⟩] (gSet [] startState 0) [] 0

/-- Shallow embedding of `calculateMinMoves` (PuzzleGame.tsx): the found
path cost, or the sentinel `-1` on timeout, node-cap exhaustion, or an
empty open list. -/
def calculateMinMoves (size : Nat) (timedOut : Nat → Bool)
    (startState : List Nat) : Int :=
  match calculateMinMovesOutcome size timedOut startState with
  | .found g => (g : Int)
  | _ => -1

/-! ## The hint search (`getHint`)

Same machinery with three differences mirrored from the source: the
heuristic omits the column conflict scan, a `parent` map records
`{ prevKey, movedFrom }` for path reconstruction, and improved successors
are always pushed (`open.push`) instead of overwritten in place. -/

/-- `ParentInfo` of `getHint`: the predecessor key and the cell index the
first tile moved from (`null`s at the search root). -/
structure ParentInfo where
  prevKey : Option (List Nat)
  movedFrom : Option Nat
deriving Repr

/-- `parent` association list with JS `Map` semantics (latest binding
wins). -/
def pFind (m : List (List Nat × ParentInfo)) (k : List Nat) : Option ParentInfo :=
  match m with
  | [] => none
  | (k', v) :: rest => if k' = k then some v else pFind rest k

/-- Insert-or-overwrite for the `parent` map. -/
def pSet (m : List (List Nat × ParentInfo)) (k : List Nat) (v : ParentInfo) :
    List (List Nat × ParentInfo) :=
  (k, v) :: m

/-- The parent-link walk of `getHint` after the goal is popped: starting
from the goal key it steps to `prevKey` while that is not the start key,
tracking `firstMoveIndex = parent(curKey).movedFrom`.  The two `none`
fall-throughs model a walk that steps to a missing/`null` key, where the
JS code would fault on `parent.get(curKey)!.movedFrom`; this cannot happen
for chains the search itself builds.  `fuel` bounds the walk; the caller
passes the size of the parent map, which the walk (visiting distinct keys)
never exhausts. -/
def backwalk (parent : List (List Nat × ParentInfo)) (startKey : List Nat) :
    Nat → List Nat → Option Nat → Option Nat
  | 0, _, fmi => fmi
  | fuel + 1, curKey, fmi =>
    match pFind parent curKey with
    | none => fmi
    | some info =>
      if info.prevKey = some startKey then fmi
      else
        match info.prevKey with
        | none => none
        | some p =>
          match pFind parent p with
          | none => none
          | some info2 => backwalk parent startKey fuel p info2.movedFrom

/-- How one `getHint` invocation ends: board already solved (silent early
return), an arrow reported at `fromIndex`, goal popped but no first move
recovered, the 3-second timeout, or search failure (`A* not found`). -/
inductive HintOutcome where
  | atGoal
  | arrow (fromIndex : Nat)
  | arrowless
  | timeout
  | notFound
deriving DecidableEq, Repr

/-- Successor processing of `getHint` for one neighbour index: relax
`gScore`, record the parent link, and always `push` the new node. -/
def relaxHint (size : Nat) (closed : List (List Nat)) (curState : List Nat)
    (curG emptyIdx : Nat)
    (acc : List SearchNode × List (List Nat × Nat) × List (List Nat × ParentInfo))
    (nextIdx : Nat) :
    List SearchNode × List (List Nat × Nat) × List (List Nat × ParentInfo) :=
  let newState := succState size curState emptyIdx nextIdx
  if newState ∈ closed then acc
  else
    let tentativeG := curG + 1
    let doUpdate := match gFind acc.2.1 newState with
      | none => true
      | some prevG => decide (tentativeG < prevG)
    if doUpdate then
      let gScore := gSet acc.2.1 newState tentativeG
      let parent := pSet acc.2.2 newState ⟨some curState, some nextIdx⟩
      let h := heuristicHint size newState
      (acc.1 ++ [⟨newState, tentativeG + h, tentativeG⟩], gScore, parent)
    else acc

/-- The `while` loop of `getHint`. -/
def hintLoop (size : Nat) (goal startKey : List Nat) (timedOut : Nat → Bool) :
    Nat → List SearchNode → List (List Nat × Nat) →
    List (List Nat × ParentInfo) → List (List Nat) → Nat → HintOutcome
  | 0, _, _, _, _, _ => .notFound
  | fuel + 1, openL, gScore, parent, closed, iter =>
    match openL with
    | [] => .notFound
    | first :: rest =>
      if timedOut iter then .timeout
      else
        let (current, openL') := extractMin first rest
        if current.state = goal then
          match pFind parent current.state with
          | none => .arrowless
          | some info0 =>
            match backwalk parent startKey parent.length current.state
                info0.movedFrom with
            | some i => .arrow i
            | none => .arrowless
        else
          let closed' := current.state :: closed
          let emptyIdx := blankIdx size current.state
          let moveOptions := generateNeighbors size emptyIdx
          let next := moveOptions.foldl
            (relaxHint size closed' current.state current.g emptyIdx)
            (openL', gScore, parent)
          hintLoop size goal startKey timedOut fuel next.1 next.2.1 next.2.2
            closed' (iter + 1)

/-- Node cap of `getHint` per puzzle size. -/
def hintMaxNodes (size : Nat) : Nat :=
  if size = 3 then 50000 else if size = 4 then 20000 else 5000

/-- Shallow embedding of `getHint` (PuzzleGame.tsx), applied to the
current board `state`. -/
def getHintOutcome (size : Nat) (timedOut : Nat → Bool) (state : List Nat) :
    HintOutcome :=
  let target := goalState size
  if state = target then .atGoal
  else
    let startH := heuristicHint size state
    hintLoop size target state timedOut (hintMaxNodes size)
      [⟨state, startH, 0⟩] (gSet [] state 0) (pSet [] state ⟨none, none⟩) [] 0

/-! ## User moves and the shuffle generator -/

/-- Shallow embedding of `moveTile` (PuzzleGame.tsx): write the blank
label into the tile's cell and the tile into the blank's cell.
`state.indexOf(tileNum)` is `-1` when the label is absent; the JS write
`newState[-1] = EMPTY` then creates no array element, so only the write
into the blank's cell remains. -/
def moveTile (size : Nat) (state : List Nat) (tileNum : Nat) : List Nat :=
  let tileIdx : Int := match listIndexOf tileNum state with
    | some i => (i : Int)
    | none => -1
  let emptyIdx := blankIdx size state
  let withTile := if 0 ≤ tileIdx then state.set tileIdx.toNat (size * size)
    else state
  withTile.set emptyIdx tileNum

/-- The adjacency guard of `handleTileClickDirect`: the clicked tile and
the blank share a row and sit in adjacent columns, or share a column and
sit in adjacent rows.  `Math.floor` on the possibly negative `-1 / size`
is flooring division (`Int.fdiv`) and the JS `%` keeps the sign of the
dividend (`Int.tmod`). -/
def isAdjacentMove (size : Nat) (state : List Nat) (tileNum : Nat) : Bool :=
  let tileIdx : Int := match listIndexOf tileNum state with
    | some i => (i : Int)
    | none => -1
  let emptyIdx : Int := (blankIdx size state : Int)
  let tileRow := Int.fdiv tileIdx (size : Int)
  let tileCol := Int.tmod tileIdx (size : Int)
  let emptyRow := Int.fdiv emptyIdx (size : Int)
  let emptyCol := Int.tmod emptyIdx (size : Int)
  ((tileRow - emptyRow).natAbs == 1 && tileCol == emptyCol) ||
  ((tileCol - emptyCol).natAbs == 1 && tileRow == emptyRow)

/-- Shallow embedding of the accepting path of `handleTileClickDirect`
(PuzzleGame.tsx): a click on the blank or on a non-adjacent tile leaves
the board unchanged, otherwise `moveTile` swaps the tile with the blank.
(The purely UI guards — game won, not started, mid-animation — are not
part of the board semantics.) -/
def handleTileClickDirect (size : Nat) (state : List Nat) (tileNum : Nat) :
    List Nat :=
  if tileNum = size * size then state
  else if isAdjacentMove size state tileNum then moveTile size state tileNum
  else state

/-- One step of `performShuffle` / `generateInitialState`: pick the
neighbour `moveOptions[⌊random * len⌋]` — modelled by an arbitrary choice
`c` reduced mod the number of options — and swap it with the blank,
tracking the blank's index. -/
def performShuffleStep (size : Nat) (st : List Nat × Nat) (c : Nat) :
    List Nat × Nat :=
  let current := st.1
  let emptyIdx := st.2
  let moveOptions := generateNeighbors size emptyIdx
  let randomIdx := moveOptions.getD (c % moveOptions.length) 0
  let temp := current.getD emptyIdx 0
  ((current.set emptyIdx (current.getD randomIdx 0)).set randomIdx temp,
    randomIdx)

/-- Shallow embedding of `performShuffle` / `generateInitialState`
(PuzzleGame.tsx): start from `[1, …, n²]`, overwrite the last cell with
the blank label (`current[size*size-1] = EMPTY`, a no-op since that cell
already holds `n²`), and run the random walk of legal slides, one step per
entry of `choices` (the source runs 200 steps). -/
def performShuffle (size : Nat) (choices : List Nat) : List Nat × Nat :=
  let start := (goalState size).set (size * size - 1) (size * size)
  choices.foldl (performShuffleStep size) (start, blankIdx size start)

/-! ## Proof-side definitions -/

/-- Cross inversions between two blocks: pairs with the larger element in
the left block. -/
def crossInv (l r : List Nat) : Nat :=
  (l.map (fun a => r.countP (fun b => decide (b < a)))).sum

/-- Swapping the contents of two cells, the operation described by the
claim (`swapTiles arr p q` exchanges the tiles at positions `p` and
`q`). -/
def swapTiles (arr : List Nat) (p q : Nat) : List Nat :=
  (arr.set p (arr.getD q 0)).set q (arr.getD p 0)

/-- Invariant carried through the shuffle walk: the board is a permutation
of the goal arrangement, the tracked index is in range and holds the
blank, and the board passes `isSolvable`. -/
def ShuffleInv (size : Nat) (st : List Nat × Nat) : Prop :=
  st.1.Perm (goalState size) ∧ st.2 < size * size ∧
  st.1.getD st.2 0 = size * size ∧
  isSolvable st.1 (size * size) size = true

/-- `PathTo size target s n` says the board `s` reaches `target` by `n`
legal slides, each step being exactly the successor constructor used by
the searches and the UI (`succState` at the blank's index). -/
inductive PathTo (size : Nat) (target : List Nat) : List Nat → Nat → Prop where
  | refl : PathTo size target target 0
  | step {t : List Nat} {n : Nat} (m : Nat) :
      m ∈ generateNeighbors size (blankIdx size t) →
      PathTo size target (succState size t (blankIdx size t) m) n →
      PathTo size target t (n + 1)

/-- Executable move-sequence application with legality checks; `none`
when a move is not a neighbour of the blank. -/
def applyMoves (size : Nat) : List Nat → List Nat → Option (List Nat)
  | s, [] => some s
  | s, m :: ms =>
    let e := blankIdx size s
    if m ∈ generateNeighbors size e then applyMoves size (succState size s e m) ms
    else none

/-- Grid adjacency of two cell indices: same column and adjacent rows, or
same row and adjacent columns. -/
def gridAdjacent (size t e : Nat) : Prop :=
  (t % size = e % size ∧ (t / size + 1 = e / size ∨ e / size + 1 = t / size)) ∨
  (t / size = e / size ∧ (t % size + 1 = e % size ∨ e % size + 1 = t % size))

/-! ## Claim C10: score bounds -/

/-- C10.  For every input combination — `minMoves` either `-1` or
nonnegative, and nonnegative `actualMoves`, `actualTime`, `hintsUsed` —
`calculateScore` returns a breakdown whose `totalScore` lies in
`[0, 100]`.  (The clamp `max 0 (min 100 ·)` makes this hold without using
the hypotheses, which are kept to match the claim.) -/
theorem calcScore_total_bounds (size : Nat)
    (minMoves actualMoves actualTime hintsUsed : Int)
    (_hm : minMoves = -1 ∨ 0 ≤ minMoves) (_ha : 0 ≤ actualMoves)
    (_ht : 0 ≤ actualTime) (_hh : 0 ≤ hintsUsed) :
    0 ≤ (calculateScore size minMoves actualMoves actualTime hintsUsed).totalScore ∧
    (calculateScore size minMoves actualMoves actualTime hintsUsed).totalScore ≤ 100 := by
  refine ⟨le_max_left 0 _, max_le (by norm_num) (min_le_left _ _)⟩

/-- Witness for C10 at a concrete input. -/
theorem calcScore_total_bounds_witness :
    0 ≤ (calculateScore 3 (-1) 25 90000 1).totalScore ∧
    (calculateScore 3 (-1) 25 90000 1).totalScore ≤ 100 :=
  calcScore_total_bounds 3 (-1) 25 90000 1 (Or.inl rfl) (by decide) (by decide)
    (by decide)

/-! ## Claim C4: hint arrow directions -/

/-- C4, counterexample.  On a 4×4 board with the blank at index 5, a move
proposed from index `5 - 1 = 4` is indeed reported `→` (right), but a move
proposed from index `5 + 4 = 9` is reported `↑` (up) — the tile below the
blank slides up — not `↓` (down) as the claim states. -/
theorem hintArrow_from_below_is_up_counterexample :
    showHintArrowDirection 4 5 4 = HintDirection.right ∧
    showHintArrowDirection 4 5 9 = HintDirection.up ∧
    HintDirection.up ≠ HintDirection.down := by
  refine ⟨by decide, by decide, by decide⟩

/-- C4, amended.  For every board size at least 2 and blank index `i ≥ 1`:
a move proposed from `i - 1` is reported `→` (right), and a move proposed
from `i + size` is reported `↑` (up), not down. -/
theorem hintArrow_directions (size i : Nat) (hs : 2 ≤ size) (hi : 1 ≤ i) :
    showHintArrowDirection size i (i - 1) = HintDirection.right ∧
    showHintArrowDirection size i (i + size) = HintDirection.up := by
  unfold showHintArrowDirection
  constructor
  · have h1 : (i : Int) - ((i - 1 : Nat) : Int) = 1 := by omega
    simp [h1]
  · have h2 : (i : Int) - ((i + size : Nat) : Int) = -(size : Int) := by
      push_cast
      ring
    rw [h2]
    have hne1 : ¬(-(size : Int) = 1) := by omega
    have hne2 : ¬(-(size : Int) = -1) := by omega
    have hne3 : ¬(-(size : Int) = (size : Int)) := by omega
    simp [hne1, hne2, hne3]

/-- Witness for the amended C4 at `size = 4`, `i = 5`. -/
theorem hintArrow_directions_witness :
    showHintArrowDirection 4 5 4 = HintDirection.right ∧
    showHintArrowDirection 4 5 9 = HintDirection.up :=
  hintArrow_directions 4 5 (by decide) (by decide)

/-! ## Claim C5: the two heuristics are not the same function -/

/-- C5, counterexample.  On the 3×3 board obtained from the goal by
swapping tiles 1 and 4 (a column conflict in column 0), the hint
heuristic evaluates to 2 but the `calculateMinMoves` heuristic evaluates
to 4: the two searches do not use pointwise-equal heuristics. -/
theorem heuristics_differ_counterexample :
    heuristicHint 3 [4, 2, 3, 1, 5, 6, 7, 8, 9] = 2 ∧
    heuristicMin 3 [4, 2, 3, 1, 5, 6, 7, 8, 9] = 4 := by
  constructor <;> decide

/-- The row linear-conflict scan of `calculateMinMoves` lets `col1` run
one cell further than the hint's scan, but the extra outermost `col1`
value has an empty `col2` loop, so the two scans agree. -/
theorem rowConflicts_size_eq_pred (size : Nat) (s : List Nat) :
    rowConflicts size s size = rowConflicts size s (size - 1) := by
  cases size with
  | zero => rfl
  | succ k =>
    simp [rowConflicts, List.range_succ, Nat.sub_self]

/-- C5, amended.  The heuristic of `calculateMinMoves` is pointwise the
hint heuristic plus the column linear-conflict scan; the hint heuristic
applies the conflict check per row only, and the two functions genuinely
differ (see the counterexample). -/
theorem heuristicMin_eq_hint_add_col (size : Nat) (s : List Nat) :
    heuristicMin size s = heuristicHint size s + colConflicts size s := by
  unfold heuristicMin heuristicHint
  rw [rowConflicts_size_eq_pred]

/-! ## Claim C9: failure sentinel of `calculateMinMoves` -/

/-- C9.  `calculateMinMoves` is a total function (the embedding cannot
throw) whose result is the nonnegative cost `g` of the popped goal node,
or exactly `-1`; and it is `-1` exactly when the loop ended without
popping the goal — wall-clock timeout, node-cap exhaustion, or an
exhausted open list, the three non-`found` outcomes of `minMovesLoop`. -/
theorem calculateMinMoves_sentinel (size : Nat) (timedOut : Nat → Bool)
    (s : List Nat) :
    (∃ g : Nat, calculateMinMovesOutcome size timedOut s = .found g ∧
      calculateMinMoves size timedOut s = (g : Int) ∧
      0 ≤ calculateMinMoves size timedOut s) ∨
    (calculateMinMoves size timedOut s = -1 ∧
      (calculateMinMovesOutcome size timedOut s = .timeout ∨
       calculateMinMovesOutcome size timedOut s = .capReached ∨
       calculateMinMovesOutcome size timedOut s = .openExhausted)) := by
  unfold calculateMinMoves
  cases h : calculateMinMovesOutcome size timedOut s with
  | found g => exact Or.inl ⟨g, rfl, by simp, by simp⟩
  | timeout => exact Or.inr ⟨rfl, Or.inl rfl⟩
  | capReached => exact Or.inr ⟨rfl, Or.inr (Or.inl rfl)⟩
  | openExhausted => exact Or.inr ⟨rfl, Or.inr (Or.inr rfl)⟩

/-! ## Inversion-parity toolkit

`countInversions` is `inversions` of the blank-filtered board.  The three
facts proved here: `inversions` splits over `++` with a cross term that
only depends on the right part up to permutation; exchanging two distinct
elements changes `inversions` by an odd amount; and moving one element
across a block changes it by the block length, mod 2. -/

theorem inversions_append (l r : List Nat) :
    inversions (l ++ r) = inversions l + inversions r + crossInv l r := by
  induction l with
  | nil => simp [inversions, crossInv]
  | cons a l ih =>
    simp only [List.cons_append, inversions, crossInv, List.map_cons,
      List.sum_cons, List.countP_append, List.append_eq] at ih ⊢
    omega

theorem crossInv_perm_right (l : List Nat) {r r' : List Nat} (h : r.Perm r') :
    crossInv l r = crossInv l r' := by
  unfold crossInv
  induction l with
  | nil => simp
  | cons a l ih => simp [List.map_cons, h.countP_eq, ih]

theorem crossInv_perm_left {l l' : List Nat} (h : l.Perm l') (r : List Nat) :
    crossInv l r = crossInv l' r := by
  unfold crossInv
  exact List.Perm.sum_eq (h.map _)

/-- Exchanging the two distinguished elements around a middle block that
contains neither changes the inversion count by an odd amount. -/
theorem inversions_swap_odd (x y : Nat) (L R : List Nat) (hxy : x ≠ y)
    (hxL : x ∉ L) (hyL : y ∉ L) :
    (inversions (x :: (L ++ y :: R)) + inversions (y :: (L ++ x :: R))) % 2
      = 1 := by
  induction L with
  | nil =>
    simp only [List.nil_append, inversions, List.countP_cons]
    have hcase : (decide (y < x) : Bool) = true ∧ (decide (x < y) : Bool) = false ∨
        (decide (y < x) : Bool) = false ∧ (decide (x < y) : Bool) = true := by
      rcases Nat.lt_or_ge x y with h | h
      · exact Or.inr ⟨by simp; omega, by simp [h]⟩
      · have : y < x := lt_of_le_of_ne h (Ne.symm hxy)
        exact Or.inl ⟨by simp [this], by simp; omega⟩
    rcases hcase with ⟨h1, h2⟩ | ⟨h1, h2⟩ <;> simp [h1, h2] <;> omega
  | cons a L ih =>
    have hax : a ≠ x := fun h => hxL (by simp [h])
    have hay : a ≠ y := fun h => hyL (by simp [h])
    have ih' := ih (fun h => hxL (List.mem_cons_of_mem _ h))
      (fun h => hyL (List.mem_cons_of_mem _ h))
    simp only [List.cons_append, inversions, List.countP_cons,
      List.countP_append] at ih' ⊢
    have hxa : (decide (a < x) : Bool) = true ∧ (decide (x < a) : Bool) = false ∨
        (decide (a < x) : Bool) = false ∧ (decide (x < a) : Bool) = true := by
      rcases Nat.lt_or_ge a x with h | h
      · exact Or.inl ⟨by simp [h], by simp; omega⟩
      · have : x < a := lt_of_le_of_ne h (Ne.symm hax)
        exact Or.inr ⟨by simp; omega, by simp [this]⟩
    have hya : (decide (a < y) : Bool) = true ∧ (decide (y < a) : Bool) = false ∨
        (decide (a < y) : Bool) = false ∧ (decide (y < a) : Bool) = true := by
      rcases Nat.lt_or_ge a y with h | h
      · exact Or.inl ⟨by simp [h], by simp; omega⟩
      · have : y < a := lt_of_le_of_ne h (Ne.symm hay)
        exact Or.inr ⟨by simp; omega, by simp [this]⟩
    rcases hxa with ⟨h1, h2⟩ | ⟨h1, h2⟩ <;> rcases hya with ⟨h3, h4⟩ | ⟨h3, h4⟩ <;>
      simp [h1, h2, h3, h4] at ih' ⊢ <;> omega

/-- Moving one element across a block it does not occur in changes the
inversion count by the block length, mod 2. -/
theorem inversions_move_parity (t : Nat) (Y Z : List Nat) (htY : t ∉ Y) :
    (inversions (t :: (Y ++ Z)) + inversions (Y ++ t :: Z) + Y.length) % 2
      = 0 := by
  induction Y with
  | nil =>
    simp only [List.nil_append, List.length_nil]
    omega
  | cons a Y ih =>
    have hat : a ≠ t := fun h => htY (by simp [h])
    have ih' := ih (fun h => htY (List.mem_cons_of_mem _ h))
    simp only [List.cons_append, inversions, List.countP_cons,
      List.countP_append, List.length_cons] at ih' ⊢
    have h : (decide (a < t) : Bool) = true ∧ (decide (t < a) : Bool) = false ∨
        (decide (a < t) : Bool) = false ∧ (decide (t < a) : Bool) = true := by
      rcases Nat.lt_or_ge a t with h | h
      · exact Or.inl ⟨by simp [h], by simp; omega⟩
      · have : t < a := lt_of_le_of_ne h (Ne.symm hat)
        exact Or.inr ⟨by simp; omega, by simp [this]⟩
    rcases h with ⟨h1, h2⟩ | ⟨h1, h2⟩ <;> simp [h1, h2] at ih' ⊢ <;> omega

/-! ## Claim C6: swapping two non-blank tiles flips `isSolvable` -/

theorem swapTiles_comm (arr : List Nat) {p q : Nat} (h : p ≠ q) :
    swapTiles arr p q = swapTiles arr q p := by
  unfold swapTiles
  exact List.set_comm _ _ _ h

/-- Writing two cells `p < q` decomposes the list into the three untouched
segments around them. -/
theorem set_set_eq_segments :
    ∀ (l : List Nat) (p q a b : Nat), p < q → q < l.length →
      (l.set p a).set q b
        = l.take p ++ a :: ((l.drop (p + 1)).take (q - p - 1)) ++
            b :: l.drop (q + 1)
  | [], _, _, _, _, _, hq => by simp at hq
  | c :: t, 0, q + 1, a, b, _, hq => by
    have hq' : q < t.length := by
      simp only [List.length_cons] at hq
      omega
    simp only [List.set_cons_zero, List.set_cons_succ, List.take_zero,
      List.drop_succ_cons, List.drop_zero, List.nil_append, Nat.add_sub_cancel,
      Nat.sub_zero]
    rw [List.set_eq_take_cons_drop b hq']
    simp
  | c :: t, p + 1, q + 1, a, b, hpq, hq => by
    have hq' : q < t.length := by
      simp only [List.length_cons] at hq
      omega
    have h := set_set_eq_segments t p q a b (by omega) hq'
    simp only [List.set_cons_succ, List.take_succ_cons, List.drop_succ_cons,
      List.cons_append, Nat.add_sub_add_right]
    rw [h]

/-- Overwriting a cell with its own content is the identity. -/
theorem set_getD_self : ∀ (l : List Nat) (p : Nat), p < l.length →
    l.set p (l.getD p 0) = l
  | [], _, h => by simp at h
  | c :: t, 0, _ => by simp
  | c :: t, p + 1, h => by
    simp only [List.getD_cons_succ, List.set_cons_succ]
    rw [set_getD_self t p (by simpa using h)]

/-- A list is the concatenation of the segments around any two cell
positions `p < q`. -/
theorem self_eq_segments (l : List Nat) (p q : Nat) (hpq : p < q)
    (hq : q < l.length) :
    l = l.take p ++ l.getD p 0 :: ((l.drop (p + 1)).take (q - p - 1)) ++
          l.getD q 0 :: l.drop (q + 1) := by
  have h := set_set_eq_segments l p q (l.getD p 0) (l.getD q 0) hpq hq
  rw [set_getD_self l p (by omega), set_getD_self l q hq] at h
  exact h

/-- The two middles around the swap are permutations of each other. -/
theorem middle_swap_perm (x y : Nat) (B C : List Nat) :
    (x :: (B ++ y :: C)).Perm (y :: (B ++ x :: C)) := by
  refine List.Perm.trans (List.Perm.cons x List.perm_middle) ?_
  refine List.Perm.trans (List.Perm.swap y x (B ++ C)) ?_
  exact List.Perm.cons y List.perm_middle.symm

/-- Core parity fact: swapping two distinct cells whose contents both
differ from the blank label changes the parity of `countInversions`. -/
theorem countInversions_swap_parity (arr : List Nat) (p q empty : Nat)
    (hpq : p < q) (hq : q < arr.length) (hnd : arr.Nodup)
    (hx : arr.getD p 0 ≠ empty) (hy : arr.getD q 0 ≠ empty) :
    (countInversions arr empty + countInversions (swapTiles arr p q) empty) % 2
      = 1 := by
  set x := arr.getD p 0 with hxdef
  set y := arr.getD q 0 with hydef
  set A := arr.take p with hA
  set B := (arr.drop (p + 1)).take (q - p - 1) with hB
  set C := arr.drop (q + 1) with hC
  have harr0 : arr = A ++ x :: B ++ y :: C := self_eq_segments arr p q hpq hq
  have hswap0 : swapTiles arr p q = A ++ y :: B ++ x :: C :=
    set_set_eq_segments arr p q y x hpq hq
  have harr : arr = A ++ (x :: (B ++ y :: C)) := by
    rw [harr0]
    simp
  have hswap : swapTiles arr p q = A ++ (y :: (B ++ x :: C)) := by
    rw [hswap0]
    simp
  -- nodup facts on the decomposition
  have hnd' : (A ++ x :: (B ++ y :: C)).Nodup := by rw [← harr]; exact hnd
  have sub1 : (x :: (B ++ y :: C)).Nodup := hnd'.of_append_right
  have hx1 : x ∉ B ++ y :: C := (List.nodup_cons.mp sub1).1
  have sub2 : (B ++ y :: C).Nodup := (List.nodup_cons.mp sub1).2
  have hxy : x ≠ y := fun h => hx1 (by simp [h])
  have hxB : x ∉ B := fun h => hx1 (List.mem_append_left _ h)
  have hyB : y ∉ B := by
    have hdisj := (List.nodup_append.mp sub2).2.2
    intro h
    exact hdisj h (by simp)
  -- filtered segments
  set P : Nat → Bool := fun v => decide (v ≠ empty) with hP
  have hPx : P x = true := by simp [hP, hx]
  have hPy : P y = true := by simp [hP, hy]
  set FA := A.filter P with hFA
  set FB := B.filter P with hFB
  set FC := C.filter P with hFC
  have hfilter1 : arr.filter P = FA ++ x :: (FB ++ y :: FC) := by
    rw [harr]
    simp [List.filter_append, List.filter_cons, hPx, hPy]
  have hfilter2 : (swapTiles arr p q).filter P = FA ++ y :: (FB ++ x :: FC) := by
    rw [hswap]
    simp [List.filter_append, List.filter_cons, hPx, hPy]
  have hxFB : x ∉ FB := fun h => hxB (List.mem_of_mem_filter h)
  have hyFB : y ∉ FB := fun h => hyB (List.mem_of_mem_filter h)
  have hodd := inversions_swap_odd x y FB FC hxy hxFB hyFB
  have e1 : countInversions arr empty
      = inversions FA + inversions (x :: (FB ++ y :: FC)) +
          crossInv FA (x :: (FB ++ y :: FC)) := by
    unfold countInversions
    rw [hfilter1, inversions_append]
  have e2 : countInversions (swapTiles arr p q) empty
      = inversions FA + inversions (y :: (FB ++ x :: FC)) +
          crossInv FA (y :: (FB ++ x :: FC)) := by
    unfold countInversions
    rw [hfilter2, inversions_append]
  have ecross : crossInv FA (x :: (FB ++ y :: FC))
      = crossInv FA (y :: (FB ++ x :: FC)) :=
    crossInv_perm_right FA (middle_swap_perm x y FB FC)
  rw [e1, e2, ecross]
  omega

/-- C6.  For every 3×3 board that is a permutation of `{1, …, 9}` (blank
label 9) and every pair of distinct positions holding non-blank tiles,
swapping the two tiles flips `isSolvable`. -/
theorem isSolvable_flips_on_swap (arr : List Nat) (p q : Nat)
    (hperm : arr.Perm (goalState 3)) (hp : p < 9) (hq : q < 9) (hpq : p ≠ q)
    (hx : arr.getD p 0 ≠ 9) (hy : arr.getD q 0 ≠ 9) :
    isSolvable (swapTiles arr p q) 9 3 = !isSolvable arr 9 3 := by
  have hlen : arr.length = 9 := by
    have := hperm.length_eq
    simpa [goalState] using this
  have hnd : arr.Nodup := by
    refine hperm.nodup_iff.mpr ?_
    exact List.Nodup.map (fun a b h => by omega) (List.nodup_range _)
  have key : ∀ (u v : Nat), u < v → v < arr.length → arr.getD u 0 ≠ 9 →
      arr.getD v 0 ≠ 9 →
      isSolvable (swapTiles arr u v) 9 3 = !isSolvable arr 9 3 := by
    intro u v huv hv hgu hgv
    have hparity := countInversions_swap_parity arr u v 9 huv hv hnd hgu hgv
    show decide (countInversions (swapTiles arr u v) 9 % 2 = 0)
        = !decide (countInversions arr 9 % 2 = 0)
    rcases Nat.mod_two_eq_zero_or_one (countInversions arr 9) with h | h <;>
      rcases Nat.mod_two_eq_zero_or_one
        (countInversions (swapTiles arr u v) 9) with h' | h' <;>
      simp [h, h'] at hparity ⊢ <;> omega
  rcases Nat.lt_or_ge p q with hlt | hge
  · exact key p q hlt (by omega) hx hy
  · have hlt : q < p := lt_of_le_of_ne hge (Ne.symm hpq)
    rw [swapTiles_comm arr hpq]
    exact key q p hlt (by omega) hy hx

/-- Witness for C6: swapping tiles 1 and 2 of the solved board makes it
unsolvable. -/
theorem isSolvable_flips_on_swap_witness :
    isSolvable (swapTiles (goalState 3) 0 1) 9 3 = !isSolvable (goalState 3) 9 3 :=
  isSolvable_flips_on_swap (goalState 3) 0 1 (List.Perm.refl _) (by decide)
    (by decide) (by decide) (by decide) (by decide)

/-! ## Board facts used by the shuffle invariant (C7) -/

theorem goalState_length (size : Nat) : (goalState size).length = size * size := by
  simp [goalState]

theorem goalState_nodup (size : Nat) : (goalState size).Nodup :=
  List.Nodup.map (fun a b h => by omega) (List.nodup_range _)

theorem goalState_getD (size i : Nat) (h : i < size * size) :
    (goalState size).getD i 0 = i + 1 := by
  rw [List.getD_eq_getElem _ _ (by simpa [goalState_length] using h)]
  simp [goalState]

theorem blank_mem_goalState (size : Nat) (h : 1 ≤ size) :
    size * size ∈ goalState size := by
  have hpos : 0 < size * size := Nat.mul_pos (by omega) (by omega)
  have h1 : size * size - 1 < size * size := by omega
  have := goalState_getD size (size * size - 1) h1
  have hmem : (goalState size).getD (size * size - 1) 0 ∈ goalState size := by
    rw [List.getD_eq_getElem _ _ (by simpa [goalState_length] using h1)]
    exact List.getElem_mem _
  rw [this] at hmem
  have h2 : size * size - 1 + 1 = size * size := by omega
  rwa [h2] at hmem

theorem count_goalState_blank (size : Nat) (h : 1 ≤ size) :
    (goalState size).count (size * size) = 1 := by
  have hle := List.nodup_iff_count_le_one.mp (goalState_nodup size) (size * size)
  have hge := List.count_pos_iff.mpr (blank_mem_goalState size h)
  omega

/-- JS `indexOf` really is the position `p` when the list has no
duplicates and cell `p` holds the sought value. -/
theorem listIndexOf_eq_some : ∀ (l : List Nat) (p a : Nat), l.Nodup →
    p < l.length → l.getD p 0 = a → listIndexOf a l = some p
  | [], p, a, _, hp, _ => by simp at hp
  | c :: t, 0, a, _, _, hv => by
    simp only [List.getD_cons_zero] at hv
    simp [listIndexOf, hv]
  | c :: t, p + 1, a, hnd, hp, hv => by
    simp only [List.getD_cons_succ] at hv
    have hp' : p < t.length := by simpa using hp
    have hmem : a ∈ t := by
      rw [← hv, List.getD_eq_getElem _ _ hp']
      exact List.getElem_mem _
    have hca : c ≠ a := by
      intro h
      exact (List.nodup_cons.mp hnd).1 (h ▸ hmem)
    simp only [listIndexOf, if_neg hca]
    rw [listIndexOf_eq_some t p a (List.nodup_cons.mp hnd).2 hp' hv]

/-- Membership characterisation of `generateNeighbors`, phrased through
the row and column of the blank. -/
theorem mem_generateNeighbors_iff (size e m : Nat) :
    m ∈ generateNeighbors size e ↔
      (0 < e % size ∧ m = e - 1) ∨ (e % size < size - 1 ∧ m = e + 1) ∨
      (0 < e / size ∧ m = e - size) ∨ (e / size < size - 1 ∧ m = e + size) := by
  have hite : ∀ (c : Prop) [Decidable c] (x : Nat),
      m ∈ (if c then [x] else ([] : List Nat)) ↔ c ∧ m = x := by
    intro c _ x
    split <;> simp_all
  simp only [generateNeighbors, List.mem_append, hite]
  tauto

/-- For a board of size at least 2, every cell has at least one
neighbour. -/
theorem generateNeighbors_ne_nil (size e : Nat) (hs : 2 ≤ size) :
    generateNeighbors size e ≠ [] := by
  unfold generateNeighbors
  intro h
  rcases List.append_eq_nil.mp h with ⟨h12, -⟩
  rcases List.append_eq_nil.mp h12 with ⟨h12', -⟩
  rcases List.append_eq_nil.mp h12' with ⟨h1, h2⟩
  by_cases hc : 0 < e % size
  · rw [if_pos hc] at h1
    simp at h1
  · have : e % size < size - 1 := by
      have := Nat.mod_lt e (show 0 < size by omega)
      omega
    rw [if_pos this] at h2
    simp at h2

/-- Picking any index mod the length of a nonempty list lands in the
list. -/
theorem getD_mod_length_mem (l : List Nat) (c : Nat) (h : l ≠ []) :
    l.getD (c % l.length) 0 ∈ l := by
  have hlen : 0 < l.length := List.length_pos.mpr h
  have hlt : c % l.length < l.length := Nat.mod_lt _ hlen
  rw [List.getD_eq_getElem _ _ hlt]
  exact List.getElem_mem _

/-- Swapping two cells permutes the list. -/
theorem swapTiles_perm (l : List Nat) (p q : Nat) (hne : p ≠ q)
    (hp : p < l.length) (hq : q < l.length) : (swapTiles l p q).Perm l := by
  have key : ∀ (u v : Nat), u < v → v < l.length → (swapTiles l u v).Perm l := by
    intro u v huv hv
    have h1 := set_set_eq_segments l u v (l.getD v 0) (l.getD u 0) huv hv
    have h2 := self_eq_segments l u v huv hv
    unfold swapTiles
    rw [h1]
    conv_rhs => rw [h2]
    have hA : ∀ (X Y : List Nat), X.Perm Y →
        (l.take u ++ X).Perm (l.take u ++ Y) := fun X Y h =>
      List.Perm.append_left _ h
    have := hA _ _ (middle_swap_perm (l.getD v 0) (l.getD u 0)
      ((l.drop (u + 1)).take (v - u - 1)) (l.drop (v + 1)))
    simpa using this
  rcases Nat.lt_or_ge p q with hlt | hge
  · exact key p q hlt hq
  · have hlt : q < p := lt_of_le_of_ne hge (Ne.symm hne)
    rw [swapTiles_comm l hne]
    exact key q p hlt hp

theorem getD_swapTiles_right (l : List Nat) (p q : Nat) (hq : q < l.length) :
    (swapTiles l p q).getD q 0 = l.getD p 0 := by
  unfold swapTiles
  rw [List.getD_eq_getElem _ _ (by simpa using hq)]
  simp [List.getElem_set_self]

theorem getD_swapTiles_left (l : List Nat) (p q : Nat) (hne : p ≠ q)
    (hp : p < l.length) : (swapTiles l p q).getD p 0 = l.getD q 0 := by
  have hqp : q ≠ p := fun h => hne h.symm
  unfold swapTiles
  rw [List.getD_eq_getElem _ _ (by simpa using hp)]
  simp [List.getElem_set_ne hqp, List.getElem_set_self]

/-! ## `isSolvable` is invariant under legal slides -/

theorem int_fdiv_natCast (a b : Nat) :
    Int.fdiv (a : Int) (b : Int) = ((a / b : Nat) : Int) :=
  (Int.ofNat_fdiv a b).symm

/-- `isSolvable` on an odd-sized board is the parity of the inversion
count. -/
theorem isSolvable_odd_eq (arr : List Nat) (empty size : Nat)
    (hpar : size % 2 = 1) :
    isSolvable arr empty size = decide (countInversions arr empty % 2 = 0) := by
  unfold isSolvable
  rw [if_pos hpar]

/-- `isSolvable` on an even-sized board, when the blank is at index `e`,
compares the parity of `inversions + (size - ⌊e / size⌋)`. -/
theorem isSolvable_even_eq (arr : List Nat) (empty size e : Nat)
    (hpar : size % 2 ≠ 1) (hidx : listIndexOf empty arr = some e) :
    isSolvable arr empty size
      = decide (((countInversions arr empty : Int) +
          ((size : Int) - ((e / size : Nat) : Int))) % 2 = 1) := by
  unfold isSolvable
  rw [if_neg hpar]
  simp only [hidx, int_fdiv_natCast]

theorem swapTiles_length (l : List Nat) (p q : Nat) :
    (swapTiles l p q).length = l.length := by
  simp [swapTiles]

/-- Sliding the blank one cell sideways (swap of cells `p` and `p + 1` in
one row, one of them the blank) does not change `isSolvable`. -/
theorem isSolvable_swap_horiz (size : Nat) (s : List Nat) (p : Nat)
    (hnd : s.Nodup) (hp1 : p + 1 < s.length) (hrow : p % size < size - 1)
    (hblank : s.getD p 0 = size * size ∨ s.getD (p + 1) 0 = size * size) :
    isSolvable (swapTiles s p (p + 1)) (size * size) size
      = isSolvable s (size * size) size := by
  obtain ⟨x, hx⟩ : ∃ v, s.getD p 0 = v := ⟨_, rfl⟩
  obtain ⟨y, hy⟩ : ∃ v, s.getD (p + 1) 0 = v := ⟨_, rfl⟩
  rw [hx, hy] at hblank
  have hlt : p < p + 1 := by omega
  have h1 := self_eq_segments s p (p + 1) hlt hp1
  have h2 := set_set_eq_segments s p (p + 1) y x hlt hp1
  have hmid : p + 1 - p - 1 = 0 := by omega
  rw [hx, hy, hmid, List.take_zero] at h1
  rw [hmid, List.take_zero] at h2
  set A := s.take p with hA
  set C := s.drop (p + 1 + 1) with hC
  have harr : s = A ++ (x :: y :: C) := by
    conv_lhs => rw [h1]
    simp
  have hswap : swapTiles s p (p + 1) = A ++ (y :: x :: C) := by
    unfold swapTiles
    rw [hx, hy, h2]
    simp
  have hnd' : (A ++ (x :: y :: C)).Nodup := by rw [← harr]; exact hnd
  have hxy : x ≠ y := by
    have sub1 : (x :: y :: C).Nodup := hnd'.of_append_right
    intro h
    exact (List.nodup_cons.mp sub1).1 (by simp [h])
  have hndswap : (swapTiles s p (p + 1)).Nodup :=
    ((swapTiles_perm s p (p + 1) (by omega) (by omega) hp1).nodup_iff).mpr hnd
  have hgetswap : (swapTiles s p (p + 1)).getD (p + 1) 0 = x := by
    rw [getD_swapTiles_right s p (p + 1) hp1, hx]
  have hgetswap' : (swapTiles s p (p + 1)).getD p 0 = y := by
    rw [getD_swapTiles_left s p (p + 1) (by omega) (by omega), hy]
  -- the two filtered boards coincide
  have hinv : countInversions (swapTiles s p (p + 1)) (size * size)
      = countInversions s (size * size) := by
    unfold countInversions
    rw [hswap]
    conv_rhs => rw [harr]
    rcases hblank with hbx | hby
    · have hyne : y ≠ size * size := fun h => hxy (by rw [hbx, h])
      simp [List.filter_append, List.filter_cons, hbx, hyne]
    · have hxne : x ≠ size * size := fun h => hxy (by rw [h, hby])
      simp [List.filter_append, List.filter_cons, hby, hxne]
  -- blank rows coincide
  have hroweq : (p + 1) / size = p / size := by
    rcases Nat.eq_zero_or_pos size with hz | hpos
    · subst hz
      simp at hrow
    have hd := Nat.div_add_mod p size
    have hm := Nat.mod_lt p hpos
    have hsplit : p + 1 = size * (p / size) + (p % size + 1) := by omega
    calc (p + 1) / size
        = (size * (p / size) + (p % size + 1)) / size := by rw [← hsplit]
      _ = p / size + (p % size + 1) / size := Nat.mul_add_div hpos _ _
      _ = p / size + 0 := by
          rw [Nat.div_eq_of_lt (show p % size + 1 < size by omega)]
      _ = p / size := Nat.add_zero _
  by_cases hpar : size % 2 = 1
  · rw [isSolvable_odd_eq _ _ _ hpar, isSolvable_odd_eq _ _ _ hpar, hinv]
  · rcases hblank with hbx | hby
    · have hidx1 : listIndexOf (size * size) s = some p :=
        listIndexOf_eq_some s p _ hnd (by omega) (by rw [hx, hbx])
      have hidx2 : listIndexOf (size * size) (swapTiles s p (p + 1))
          = some (p + 1) := by
        refine listIndexOf_eq_some _ (p + 1) _ hndswap
          (by rw [swapTiles_length]; omega) (by rw [hgetswap, hbx])
      rw [isSolvable_even_eq _ _ _ _ hpar hidx1,
        isSolvable_even_eq _ _ _ _ hpar hidx2, hinv, hroweq]
    · have hidx1 : listIndexOf (size * size) s = some (p + 1) :=
        listIndexOf_eq_some s (p + 1) _ hnd hp1 (by rw [hy, hby])
      have hidx2 : listIndexOf (size * size) (swapTiles s p (p + 1))
          = some p := by
        refine listIndexOf_eq_some _ p _ hndswap
          (by rw [swapTiles_length]; omega) (by rw [hgetswap', hby])
      rw [isSolvable_even_eq _ _ _ _ hpar hidx1,
        isSolvable_even_eq _ _ _ _ hpar hidx2, hinv, hroweq]

/-- Sliding the blank one cell up or down (swap of cells `p` and
`p + size`, one of them the blank) does not change `isSolvable`: the moved
tile crosses `size - 1` tiles, flipping the inversion parity by `size - 1`,
while on even boards the blank row also moves by one. -/
theorem isSolvable_swap_vert (size : Nat) (s : List Nat) (p : Nat)
    (hnd : s.Nodup) (hcount : s.count (size * size) = 1)
    (hs : 1 ≤ size) (hlen : p + size < s.length)
    (hblank : s.getD p 0 = size * size ∨ s.getD (p + size) 0 = size * size) :
    isSolvable (swapTiles s p (p + size)) (size * size) size
      = isSolvable s (size * size) size := by
  have hpos : 0 < size := hs
  obtain ⟨x, hx⟩ : ∃ v, s.getD p 0 = v := ⟨_, rfl⟩
  obtain ⟨y, hy⟩ : ∃ v, s.getD (p + size) 0 = v := ⟨_, rfl⟩
  rw [hx, hy] at hblank
  have hlt : p < p + size := by omega
  have h1 := self_eq_segments s p (p + size) hlt hlen
  have h2 := set_set_eq_segments s p (p + size) y x hlt hlen
  have hqp : p + size - p - 1 = size - 1 := by omega
  rw [hx, hy, hqp] at h1
  rw [hqp] at h2
  set A := s.take p with hA
  set B := (s.drop (p + 1)).take (size - 1) with hB
  set C := s.drop (p + size + 1) with hC
  have harr : s = A ++ (x :: (B ++ y :: C)) := by
    conv_lhs => rw [h1]
    simp
  have hswap : swapTiles s p (p + size) = A ++ (y :: (B ++ x :: C)) := by
    unfold swapTiles
    rw [hx, hy, h2]
    simp
  have hBlen : B.length = size - 1 := by
    rw [hB]
    simp only [List.length_take, List.length_drop]
    omega
  have hnd' : (A ++ (x :: (B ++ y :: C))).Nodup := by rw [← harr]; exact hnd
  have sub1 : (x :: (B ++ y :: C)).Nodup := hnd'.of_append_right
  have hx1 : x ∉ B ++ y :: C := (List.nodup_cons.mp sub1).1
  have sub2 : (B ++ y :: C).Nodup := (List.nodup_cons.mp sub1).2
  have hxy : x ≠ y := fun h => hx1 (by simp [h])
  have hxB : x ∉ B := fun h => hx1 (List.mem_append_left _ h)
  have hyB : y ∉ B := by
    have hdisj := (List.nodup_append.mp sub2).2.2
    intro h
    exact hdisj h (by simp)
  have hndswap : (swapTiles s p (p + size)).Nodup :=
    ((swapTiles_perm s p (p + size) (by omega) (by omega) hlen).nodup_iff).mpr hnd
  have hgetswap : (swapTiles s p (p + size)).getD (p + size) 0 = x := by
    rw [getD_swapTiles_right s p (p + size) hlen, hx]
  have hgetswap' : (swapTiles s p (p + size)).getD p 0 = y := by
    rw [getD_swapTiles_left s p (p + size) (by omega) (by omega), hy]
  have hrow2 : (p + size) / size = p / size + 1 := Nat.add_div_right p hpos
  rcases hblank with hbx | hby
  · -- blank slides from cell p down to cell p + size
    have hyne : y ≠ size * size := fun h => hxy (by rw [hbx, h])
    have hEB : ∀ b ∈ B, b ≠ size * size := by
      rw [harr] at hcount
      simp only [List.count_append, List.count_cons, hbx, hyne] at hcount
      intro b hb h
      have : 0 < B.count (size * size) :=
        List.count_pos_iff.mpr (h ▸ hb)
      simp at hcount
      omega
    have hfilterB : B.filter (fun v => decide (v ≠ size * size)) = B :=
      List.filter_eq_self.mpr (fun b hb => by simp [hEB b hb])
    have hfs : s.filter (fun v => decide (v ≠ size * size))
        = A.filter (fun v => decide (v ≠ size * size)) ++
          (B ++ y :: C.filter (fun v => decide (v ≠ size * size))) := by
      conv_lhs => rw [harr]
      simp [List.filter_append, List.filter_cons, hbx, hyne, hfilterB]
      all_goals exact hEB
    have hfs' : (swapTiles s p (p + size)).filter (fun v => decide (v ≠ size * size))
        = A.filter (fun v => decide (v ≠ size * size)) ++
          (y :: (B ++ C.filter (fun v => decide (v ≠ size * size)))) := by
      rw [hswap]
      simp [List.filter_append, List.filter_cons, hbx, hyne, hfilterB]
      all_goals exact hEB
    have hmove := inversions_move_parity y B
      (C.filter (fun v => decide (v ≠ size * size))) hyB
    have e1 : countInversions s (size * size)
        = inversions (A.filter (fun v => decide (v ≠ size * size))) +
          inversions (B ++ y :: C.filter (fun v => decide (v ≠ size * size))) +
          crossInv (A.filter (fun v => decide (v ≠ size * size)))
            (B ++ y :: C.filter (fun v => decide (v ≠ size * size))) := by
      unfold countInversions
      rw [hfs, inversions_append]
    have e2 : countInversions (swapTiles s p (p + size)) (size * size)
        = inversions (A.filter (fun v => decide (v ≠ size * size))) +
          inversions (y :: (B ++ C.filter (fun v => decide (v ≠ size * size)))) +
          crossInv (A.filter (fun v => decide (v ≠ size * size)))
            (y :: (B ++ C.filter (fun v => decide (v ≠ size * size)))) := by
      unfold countInversions
      rw [hfs', inversions_append]
    have ecross : crossInv (A.filter (fun v => decide (v ≠ size * size)))
          (B ++ y :: C.filter (fun v => decide (v ≠ size * size)))
        = crossInv (A.filter (fun v => decide (v ≠ size * size)))
          (y :: (B ++ C.filter (fun v => decide (v ≠ size * size)))) :=
      crossInv_perm_right _ List.perm_middle
    have hkey : (countInversions s (size * size) +
        countInversions (swapTiles s p (p + size)) (size * size) +
        (size - 1)) % 2 = 0 := by
      rw [e1, e2, ecross]
      omega
    have hidx1 : listIndexOf (size * size) s = some p :=
      listIndexOf_eq_some s p _ hnd (by omega) (by rw [hx, hbx])
    have hidx2 : listIndexOf (size * size) (swapTiles s p (p + size))
        = some (p + size) :=
      listIndexOf_eq_some _ (p + size) _ hndswap
        (by rw [swapTiles_length]; omega) (by rw [hgetswap, hbx])
    by_cases hpar : size % 2 = 1
    · rw [isSolvable_odd_eq _ _ _ hpar, isSolvable_odd_eq _ _ _ hpar,
        decide_eq_decide]
      omega
    · rw [isSolvable_even_eq _ _ _ _ hpar hidx1,
        isSolvable_even_eq _ _ _ _ hpar hidx2, hrow2, decide_eq_decide]
      have hpar' : size % 2 = 0 := by omega
      omega
  · -- blank slides from cell p + size up to cell p
    have hxne : x ≠ size * size := fun h => hxy (by rw [h, hby])
    have hEB : ∀ b ∈ B, b ≠ size * size := by
      rw [harr] at hcount
      simp only [List.count_append, List.count_cons, hby, hxne] at hcount
      intro b hb h
      have : 0 < B.count (size * size) :=
        List.count_pos_iff.mpr (h ▸ hb)
      simp at hcount
      omega
    have hfilterB : B.filter (fun v => decide (v ≠ size * size)) = B :=
      List.filter_eq_self.mpr (fun b hb => by simp [hEB b hb])
    have hfs : s.filter (fun v => decide (v ≠ size * size))
        = A.filter (fun v => decide (v ≠ size * size)) ++
          (x :: (B ++ C.filter (fun v => decide (v ≠ size * size)))) := by
      conv_lhs => rw [harr]
      simp [List.filter_append, List.filter_cons, hby, hxne, hfilterB]
      all_goals exact hEB
    have hfs' : (swapTiles s p (p + size)).filter (fun v => decide (v ≠ size * size))
        = A.filter (fun v => decide (v ≠ size * size)) ++
          (B ++ x :: C.filter (fun v => decide (v ≠ size * size))) := by
      rw [hswap]
      simp [List.filter_append, List.filter_cons, hby, hxne, hfilterB]
      all_goals exact hEB
    have hmove := inversions_move_parity x B
      (C.filter (fun v => decide (v ≠ size * size))) hxB
    have e1 : countInversions s (size * size)
        = inversions (A.filter (fun v => decide (v ≠ size * size))) +
          inversions (x :: (B ++ C.filter (fun v => decide (v ≠ size * size)))) +
          crossInv (A.filter (fun v => decide (v ≠ size * size)))
            (x :: (B ++ C.filter (fun v => decide (v ≠ size * size)))) := by
      unfold countInversions
      rw [hfs, inversions_append]
    have e2 : countInversions (swapTiles s p (p + size)) (size * size)
        = inversions (A.filter (fun v => decide (v ≠ size * size))) +
          inversions (B ++ x :: C.filter (fun v => decide (v ≠ size * size))) +
          crossInv (A.filter (fun v => decide (v ≠ size * size)))
            (B ++ x :: C.filter (fun v => decide (v ≠ size * size))) := by
      unfold countInversions
      rw [hfs', inversions_append]
    have ecross : crossInv (A.filter (fun v => decide (v ≠ size * size)))
          (x :: (B ++ C.filter (fun v => decide (v ≠ size * size))))
        = crossInv (A.filter (fun v => decide (v ≠ size * size)))
          (B ++ x :: C.filter (fun v => decide (v ≠ size * size))) :=
      crossInv_perm_right _ List.perm_middle.symm
    have hkey : (countInversions s (size * size) +
        countInversions (swapTiles s p (p + size)) (size * size) +
        (size - 1)) % 2 = 0 := by
      rw [e1, e2, ecross]
      omega
    have hidx1 : listIndexOf (size * size) s = some (p + size) :=
      listIndexOf_eq_some s (p + size) _ hnd hlen (by rw [hy, hby])
    have hidx2 : listIndexOf (size * size) (swapTiles s p (p + size))
        = some p :=
      listIndexOf_eq_some _ p _ hndswap
        (by rw [swapTiles_length]; omega) (by rw [hgetswap', hby])
    by_cases hpar : size % 2 = 1
    · rw [isSolvable_odd_eq _ _ _ hpar, isSolvable_odd_eq _ _ _ hpar,
        decide_eq_decide]
      omega
    · rw [isSolvable_even_eq _ _ _ _ hpar hidx1,
        isSolvable_even_eq _ _ _ _ hpar hidx2, hrow2, decide_eq_decide]
      have hpar' : size % 2 = 0 := by omega
      omega

/-! ## Claim C7: the shuffle generator preserves solvability -/

theorem performShuffleStep_preserves (size : Nat) (hs : 2 ≤ size)
    (st : List Nat × Nat) (c : Nat) (h : ShuffleInv size st) :
    ShuffleInv size (performShuffleStep size st c) := by
  obtain ⟨s, e⟩ := st
  obtain ⟨hperm, he, hblank, hsolv⟩ := h
  simp only at hperm he hblank hsolv
  have hlen : s.length = size * size := by
    rw [hperm.length_eq, goalState_length]
  have hnd : s.Nodup := hperm.nodup_iff.mpr (goalState_nodup size)
  have hcnt : s.count (size * size) = 1 := by
    rw [hperm.count_eq]
    exact count_goalState_blank size (by omega)
  set mo := generateNeighbors size e with hmo
  have hne : mo ≠ [] := generateNeighbors_ne_nil size e hs
  obtain ⟨m, hmdef⟩ : ∃ v, mo.getD (c % mo.length) 0 = v := ⟨_, rfl⟩
  have hmem : m ∈ mo := hmdef ▸ getD_mod_length_mem mo c hne
  have hstep : performShuffleStep size (s, e) c = (swapTiles s e m, m) := by
    simp only [performShuffleStep, swapTiles]
    rw [← hmo, hmdef]
  rw [hstep]
  have hcases := (mem_generateNeighbors_iff size e m).mp (hmo ▸ hmem)
  have hdm := Nat.div_add_mod e size
  have hmlt := Nat.mod_lt e (show 0 < size by omega)
  have hmod_le := Nat.mod_le e size
  have hdiv : e / size < size :=
    (Nat.div_lt_iff_lt_mul (show 0 < size by omega)).mpr (by omega)
  -- facts common to all four neighbour shapes
  have hmul1 : size * (size - 1) + size = size * size := by
    have h1 : size - 1 + 1 = size := by omega
    calc size * (size - 1) + size = size * (size - 1 + 1) := by
          rw [Nat.mul_add, Nat.mul_one]
      _ = size * size := by rw [h1]
  have hmulle : ∀ a b : Nat, a ≤ b → size * a ≤ size * b := fun a b hab =>
    Nat.mul_le_mul_left size hab
  have hKe : size * (e / size) ≤ e := by omega
  have hmbound : m < size * size ∧ m ≠ e := by
    rcases hcases with ⟨hc, hm⟩ | ⟨hc, hm⟩ | ⟨hc, hm⟩ | ⟨hc, hm⟩
    · constructor <;> omega
    · have h1 : size * (e / size) ≤ size * (size - 1) :=
        hmulle _ _ (by omega)
      constructor <;> omega
    · have hse : size ≤ e := by
        have h1 : size * 1 ≤ size * (e / size) := hmulle _ _ (by omega)
        omega
      constructor <;> omega
    · have h1 : size * (e / size + 1) ≤ size * (size - 1) :=
        hmulle _ _ (by omega)
      have h2 : size * (e / size + 1) = size * (e / size) + size := by
        rw [Nat.mul_add, Nat.mul_one]
      constructor <;> omega
  have hsolv' : isSolvable (swapTiles s e m) (size * size) size
      = isSolvable s (size * size) size := by
    rcases hcases with ⟨hc, hm⟩ | ⟨hc, hm⟩ | ⟨hc, hm⟩ | ⟨hc, hm⟩
    · -- m = e - 1 : slide left; cells (e-1, e), blank on the right
      have he1 : 1 ≤ e := by omega
      have hcomm : swapTiles s e m = swapTiles s (e - 1) e := by
        rw [hm, swapTiles_comm s (show e ≠ e - 1 by omega)]
      have hsplit : e - 1 = size * (e / size) + (e % size - 1) := by omega
      have hmod : (e - 1) % size = e % size - 1 := by
        rw [hsplit, Nat.mul_add_mod, Nat.mod_eq_of_lt (by omega)]
      have h := isSolvable_swap_horiz size s (e - 1) hnd
        (by omega) (by omega)
        (Or.inr (by rw [show e - 1 + 1 = e by omega]; exact hblank))
      rw [hcomm]
      rw [show e - 1 + 1 = e by omega] at h
      exact h
    · -- m = e + 1 : slide right; cells (e, e+1), blank on the left
      have h := isSolvable_swap_horiz size s e hnd
        (by omega) hc (Or.inl hblank)
      rw [hm]
      exact h
    · -- m = e - size : slide up; cells (e-size, e), blank below
      have hse : size ≤ e := by
        have h1 : size * 1 ≤ size * (e / size) := hmulle _ _ (by omega)
        omega
      have hcomm : swapTiles s e m = swapTiles s (e - size) e := by
        rw [hm, swapTiles_comm s (show e ≠ e - size by omega)]
      have h := isSolvable_swap_vert size s (e - size) hnd hcnt (by omega)
        (by omega)
        (Or.inr (by rw [show e - size + size = e by omega]; exact hblank))
      rw [hcomm]
      rw [show e - size + size = e by omega] at h
      exact h
    · -- m = e + size : slide down; cells (e, e+size), blank above
      have h := isSolvable_swap_vert size s e hnd hcnt (by omega)
        (by omega) (Or.inl hblank)
      rw [hm]
      exact h
  refine ⟨?_, ?_, ?_, ?_⟩
  · exact (swapTiles_perm s e m (fun h => hmbound.2 h.symm) (by omega)
      (by omega)).trans hperm
  · exact hmbound.1
  · simp only
    rw [getD_swapTiles_right s e m (by omega)]
    exact hblank
  · simp only
    rw [hsolv']
    exact hsolv

theorem inversions_of_ascending (l : List Nat) (h : l.Pairwise (· < ·)) :
    inversions l = 0 := by
  induction l with
  | nil => rfl
  | cons a t ih =>
    obtain ⟨ha, ht⟩ := List.pairwise_cons.mp h
    rw [inversions, ih ht, List.countP_eq_zero.mpr]
    intro b hb
    simp only [decide_eq_true_eq]
    have := ha b hb
    omega

theorem countInversions_goalState (size : Nat) :
    countInversions (goalState size) (size * size) = 0 := by
  unfold countInversions
  apply inversions_of_ascending
  apply List.Pairwise.filter
  exact List.Pairwise.map _ (fun a b h => by omega) (List.pairwise_lt_range _)

theorem goalState_blankIdx (size : Nat) (hs : 1 ≤ size) :
    listIndexOf (size * size) (goalState size) = some (size * size - 1) := by
  have hpos : 0 < size * size := Nat.mul_pos (by omega) (by omega)
  refine listIndexOf_eq_some _ _ _ (goalState_nodup size)
    (by rw [goalState_length]; omega) ?_
  rw [goalState_getD size _ (by omega)]
  omega

theorem isSolvable_goalState (size : Nat) (hs : 1 ≤ size) :
    isSolvable (goalState size) (size * size) size = true := by
  have hpos : 0 < size * size := Nat.mul_pos (by omega) (by omega)
  by_cases hpar : size % 2 = 1
  · rw [isSolvable_odd_eq _ _ _ hpar, countInversions_goalState]
    simp
  · rw [isSolvable_even_eq _ _ _ _ hpar (goalState_blankIdx size hs),
      countInversions_goalState]
    have hrow : (size * size - 1) / size = size - 1 := by
      have hsplit : size * size - 1 = size * (size - 1) + (size - 1) := by
        have h1 : size * (size - 1) + size = size * size := by
          calc size * (size - 1) + size = size * (size - 1 + 1) := by
                rw [Nat.mul_add, Nat.mul_one]
            _ = size * size := by rw [show size - 1 + 1 = size by omega]
        omega
      rw [hsplit, Nat.mul_add_div (by omega), Nat.div_eq_of_lt (by omega),
        Nat.add_zero]
    rw [hrow]
    simp only [decide_eq_true_eq]
    omega

/-- C7.  For every grid size at least 2 and every sequence of random
choices driving the 200-step walk, `performShuffle` produces a board that
is a permutation of `{1, …, N²}` (hence contains exactly one blank label
`N²`) and satisfies `isSolvable`. -/
theorem performShuffle_solvable (size : Nat) (hs : 2 ≤ size)
    (choices : List Nat) :
    (performShuffle size choices).1.Perm (goalState size) ∧
    (performShuffle size choices).1.count (size * size) = 1 ∧
    isSolvable (performShuffle size choices).1 (size * size) size = true := by
  have hpos : 0 < size * size := Nat.mul_pos (by omega) (by omega)
  have hstart : (goalState size).set (size * size - 1) (size * size)
      = goalState size := by
    have h1 := goalState_getD size (size * size - 1) (by omega)
    have h2 : size * size - 1 + 1 = size * size := by omega
    calc (goalState size).set (size * size - 1) (size * size)
        = (goalState size).set (size * size - 1)
            ((goalState size).getD (size * size - 1) 0) := by rw [h1, h2]
      _ = goalState size := set_getD_self _ _ (by rw [goalState_length]; omega)
  have hfold : ∀ (cs : List Nat) (st : List Nat × Nat), ShuffleInv size st →
      ShuffleInv size (cs.foldl (performShuffleStep size) st) := by
    intro cs
    induction cs with
    | nil => intro st h; exact h
    | cons c cs ih =>
      intro st h
      exact ih _ (performShuffleStep_preserves size hs st c h)
  have hinit : ShuffleInv size
      ((goalState size).set (size * size - 1) (size * size),
        blankIdx size ((goalState size).set (size * size - 1) (size * size))) := by
    rw [hstart]
    have hbi : blankIdx size (goalState size) = size * size - 1 := by
      unfold blankIdx
      rw [goalState_blankIdx size (by omega)]
    refine ⟨List.Perm.refl _, ?_, ?_, ?_⟩
    · rw [hbi]; omega
    · simp only [hbi]
      rw [goalState_getD size _ (by omega)]
      omega
    · exact isSolvable_goalState size (by omega)
  have hres : ShuffleInv size (performShuffle size choices) := by
    unfold performShuffle
    exact hfold choices _ hinit
  obtain ⟨hperm, -, -, hsolv⟩ := hres
  refine ⟨hperm, ?_, hsolv⟩
  rw [hperm.count_eq]
  exact count_goalState_blank size (by omega)

/-- Witness for C7 at `size = 2` with a short concrete choice sequence. -/
theorem performShuffle_solvable_witness :
    (performShuffle 2 [0, 1, 2, 1]).1.Perm (goalState 2) ∧
    (performShuffle 2 [0, 1, 2, 1]).1.count (2 * 2) = 1 ∧
    isSolvable (performShuffle 2 [0, 1, 2, 1]).1 (2 * 2) 2 = true :=
  performShuffle_solvable 2 (by decide) [0, 1, 2, 1]

/-! ## Legal move sequences -/

theorem applyMoves_pathTo (size : Nat) :
    ∀ (ms : List Nat) (s t : List Nat),
      applyMoves size s ms = some t → PathTo size t s ms.length := by
  intro ms
  induction ms with
  | nil =>
    intro s t h
    simp only [applyMoves, Option.some.injEq] at h
    rw [← h]
    exact PathTo.refl
  | cons m ms ih =>
    intro s t h
    simp only [applyMoves] at h
    split at h
    · exact PathTo.step m (by assumption) (ih _ _ h)
    · exact absurd h (by simp)

/-! ## Claim C2: the full heuristic is not admissible -/

/-- C2, counterexample.  The board `[3,8,1,6,5,4,9,2,7]` is reachable on
the 3×3 puzzle (26 legal slides from the goal produce it), it can be
solved in 26 slides, yet the `calculateMinMoves` heuristic evaluates to 28
on it: the heuristic exceeds the true optimal distance, so it is not
admissible.  The pairwise linear-conflict penalty overcounts. -/
theorem heuristicMin_not_admissible :
    PathTo 3 [3, 8, 1, 6, 5, 4, 9, 2, 7] (goalState 3) 26 ∧
    PathTo 3 (goalState 3) [3, 8, 1, 6, 5, 4, 9, 2, 7] 26 ∧
    heuristicMin 3 [3, 8, 1, 6, 5, 4, 9, 2, 7] = 28 := by
  refine ⟨?_, ?_, by decide⟩
  · exact applyMoves_pathTo 3
      [7, 6, 3, 4, 5, 8, 7, 4, 1, 0, 3, 6, 7, 4, 1, 2, 5, 4, 3, 0, 1, 2, 5, 4, 3, 6]
      (goalState 3) _ (by decide)
  · exact applyMoves_pathTo 3
      [7, 8, 5, 4, 3, 6, 7, 4, 1, 2, 5, 8, 7, 4, 1, 0, 3, 4, 5, 2, 1, 0, 3, 4, 5, 8]
      [3, 8, 1, 6, 5, 4, 9, 2, 7] _ (by decide)

/-! ## Amended C2: the Manhattan part of the heuristic is admissible -/

theorem manhattanPart_goalState (size : Nat) :
    manhattanPart size (goalState size) = 0 := by
  unfold manhattanPart
  apply List.sum_eq_zero
  intro x hx
  obtain ⟨i, hi, hfx⟩ := List.mem_map.mp hx
  have hi' : i < size * size := by
    have := List.mem_range.mp hi
    simpa [goalState_length] using this
  rw [← hfx, goalState_getD size i hi']
  by_cases h : i + 1 = size * size
  · simp [h]
  · rw [if_neg h]
    simp [tileDist, Nat.add_sub_cancel, Int.sub_self]

/-- Any member of a neighbour list is another cell of the board, distinct
from the blank's cell. -/
theorem neighbor_lt_ne (size e m : Nat) (he : e < size * size)
    (hm : m ∈ generateNeighbors size e) : m < size * size ∧ m ≠ e := by
  have hpos : 0 < size := by
    rcases Nat.eq_zero_or_pos size with h | h
    · subst h
      exact absurd he (by omega)
    · exact h
  obtain ⟨r, c0, hrc, hclt, hrlt⟩ :
      ∃ r c0, e = size * r + c0 ∧ c0 < size ∧ r < size :=
    ⟨e / size, e % size, (Nat.div_add_mod e size).symm, Nat.mod_lt e hpos,
      (Nat.div_lt_iff_lt_mul hpos).mpr (by omega)⟩
  have hdiv : e / size = r := by
    rw [hrc, Nat.mul_add_div hpos, Nat.div_eq_of_lt hclt, Nat.add_zero]
  have hmod : e % size = c0 := by
    rw [hrc, Nat.mul_add_mod, Nat.mod_eq_of_lt hclt]
  have hB1 : size * (r + 1) = size * r + size := by ring
  have hA1 : size * (r + 1) ≤ size * size := Nat.mul_le_mul_left _ (by omega)
  rcases (mem_generateNeighbors_iff size e m).mp hm with
    ⟨hc, hmeq⟩ | ⟨hc, hmeq⟩ | ⟨hc, hmeq⟩ | ⟨hc, hmeq⟩
  · subst hmeq
    rw [hmod] at hc
    constructor <;> omega
  · subst hmeq
    rw [hmod] at hc
    constructor <;> omega
  · subst hmeq
    rw [hdiv] at hc
    have hC : size * 1 ≤ size * r := Nat.mul_le_mul_left _ (by omega)
    rw [Nat.mul_one] at hC
    constructor <;> omega
  · subst hmeq
    rw [hdiv] at hc
    have hB2 : size * (r + 2) = size * r + size + size := by ring
    have hA2 : size * (r + 2) ≤ size * size := Nat.mul_le_mul_left _ (by omega)
    constructor <;> omega

/-- One slide moves a tile to an adjacent cell, so its Manhattan term
changes by at most one. -/
theorem tileDist_adjacent (size e m v : Nat) (he : e < size * size)
    (hm : m ∈ generateNeighbors size e) :
    tileDist size m v ≤ tileDist size e v + 1 := by
  have hpos : 0 < size := by
    rcases Nat.eq_zero_or_pos size with h | h
    · subst h
      exact absurd he (by omega)
    · exact h
  obtain ⟨r, c0, hrc, hclt, hrlt⟩ :
      ∃ r c0, e = size * r + c0 ∧ c0 < size ∧ r < size :=
    ⟨e / size, e % size, (Nat.div_add_mod e size).symm, Nat.mod_lt e hpos,
      (Nat.div_lt_iff_lt_mul hpos).mpr (by omega)⟩
  have hdiv : e / size = r := by
    rw [hrc, Nat.mul_add_div hpos, Nat.div_eq_of_lt hclt, Nat.add_zero]
  have hmod : e % size = c0 := by
    rw [hrc, Nat.mul_add_mod, Nat.mod_eq_of_lt hclt]
  rcases (mem_generateNeighbors_iff size e m).mp hm with
    ⟨hc, hmeq⟩ | ⟨hc, hmeq⟩ | ⟨hc, hmeq⟩ | ⟨hc, hmeq⟩
  · subst hmeq
    rw [hmod] at hc
    have hsp : e - 1 = size * r + (c0 - 1) := by omega
    have hd1 : (e - 1) / size = r := by
      rw [hsp, Nat.mul_add_div hpos, Nat.div_eq_of_lt (by omega), Nat.add_zero]
    have hm1 : (e - 1) % size = c0 - 1 := by
      rw [hsp, Nat.mul_add_mod, Nat.mod_eq_of_lt (by omega)]
    simp only [tileDist, hd1, hm1, hdiv, hmod, Int.ofNat_eq_natCast]
    clear hd1 hm1 hsp hdiv hmod hrc he hm
    generalize (v - 1) / size = tr
    generalize (v - 1) % size = tc
    omega
  · subst hmeq
    rw [hmod] at hc
    have hsp : e + 1 = size * r + (c0 + 1) := by omega
    have hd1 : (e + 1) / size = r := by
      rw [hsp, Nat.mul_add_div hpos, Nat.div_eq_of_lt (by omega), Nat.add_zero]
    have hm1 : (e + 1) % size = c0 + 1 := by
      rw [hsp, Nat.mul_add_mod, Nat.mod_eq_of_lt (by omega)]
    simp only [tileDist, hd1, hm1, hdiv, hmod, Int.ofNat_eq_natCast]
    clear hd1 hm1 hsp hdiv hmod hrc he hm
    generalize (v - 1) / size = tr
    generalize (v - 1) % size = tc
    omega
  · subst hmeq
    rw [hdiv] at hc
    have hsp : e - size = size * (r - 1) + c0 := by
      have h2 : size * r = size * (r - 1) + size := by
        calc size * r = size * (r - 1 + 1) := by
              rw [show r - 1 + 1 = r from by omega]
          _ = size * (r - 1) + size := by ring
      omega
    have hd1 : (e - size) / size = r - 1 := by
      rw [hsp, Nat.mul_add_div hpos, Nat.div_eq_of_lt hclt, Nat.add_zero]
    have hm1 : (e - size) % size = c0 := by
      rw [hsp, Nat.mul_add_mod, Nat.mod_eq_of_lt hclt]
    simp only [tileDist, hd1, hm1, hdiv, hmod, Int.ofNat_eq_natCast]
    clear hd1 hm1 hsp hdiv hmod hrc he hm
    generalize (v - 1) / size = tr
    generalize (v - 1) % size = tc
    omega
  · subst hmeq
    have hd1 : (e + size) / size = r + 1 := by
      rw [Nat.add_div_right e hpos, hdiv]
    have hm1 : (e + size) % size = c0 := by
      rw [Nat.add_mod_right, hmod]
    simp only [tileDist, hd1, hm1, hdiv, hmod, Int.ofNat_eq_natCast]
    clear hd1 hm1 hdiv hmod hrc he hm
    generalize (v - 1) / size = tr
    generalize (v - 1) % size = tc
    omega

theorem getD_swapTiles_other (l : List Nat) (p q i : Nat) (hip : i ≠ p)
    (hiq : i ≠ q) : (swapTiles l p q).getD i 0 = l.getD i 0 := by
  unfold swapTiles
  by_cases hi : i < l.length
  · rw [List.getD_eq_getElem _ _ (by simpa using hi),
      List.getD_eq_getElem _ _ hi]
    rw [List.getElem_set_ne (fun h => hiq h.symm)]
    rw [List.getElem_set_ne (fun h => hip h.symm)]
  · rw [List.getD_eq_default _ _ (by simpa using Nat.le_of_not_lt hi),
      List.getD_eq_default _ _ (by omega)]

theorem listIndexOf_spec_of_mem :
    ∀ (l : List Nat) (a : Nat), a ∈ l →
      ∃ i, listIndexOf a l = some i ∧ i < l.length ∧ l.getD i 0 = a
  | [], a, h => absurd h (by simp)
  | b :: t, a, h => by
    by_cases hba : b = a
    · exact ⟨0, by simp [listIndexOf, hba], by simp, by simp [hba]⟩
    · have hat : a ∈ t := by
        rcases List.mem_cons.mp h with h1 | h1
        · exact absurd h1.symm hba
        · exact h1
      obtain ⟨i, h1, h2, h3⟩ := listIndexOf_spec_of_mem t a hat
      exact ⟨i + 1, by simp [listIndexOf, hba, h1], by simp; omega,
        by simpa using h3⟩

theorem blankIdx_spec (size : Nat) (s : List Nat) (h : size * size ∈ s) :
    blankIdx size s < s.length ∧ s.getD (blankIdx size s) 0 = size * size := by
  obtain ⟨i, h1, h2, h3⟩ := listIndexOf_spec_of_mem s (size * size) h
  unfold blankIdx
  rw [h1]
  exact ⟨h2, h3⟩

theorem list_range_map_sum (n : Nat) (f : Nat → Nat) :
    ((List.range n).map f).sum = ∑ i ∈ Finset.range n, f i := by
  induction n with
  | zero => simp
  | succ k ih =>
    rw [List.range_succ, Finset.sum_range_succ, List.map_append,
      List.sum_append, ih]
    simp

theorem nodup_getD_inj (l : List Nat) (hnd : l.Nodup) (i j : Nat)
    (hi : i < l.length) (hj : j < l.length)
    (h : l.getD i 0 = l.getD j 0) : i = j := by
  rw [List.getD_eq_getElem _ _ hi, List.getD_eq_getElem _ _ hj] at h
  exact (List.Nodup.getElem_inj_iff hnd).mp h

/-- One slide lowers the Manhattan sum by at most one. -/
theorem manhattanPart_step (size : Nat) (t : List Nat) (m : Nat)
    (hs : 1 ≤ size) (hperm : t.Perm (goalState size))
    (hm : m ∈ generateNeighbors size (blankIdx size t)) :
    manhattanPart size t ≤
      manhattanPart size (succState size t (blankIdx size t) m) + 1 := by
  have hlen : t.length = size * size := by
    rw [hperm.length_eq, goalState_length]
  have hnd : t.Nodup := hperm.nodup_iff.mpr (goalState_nodup size)
  have hmemE : size * size ∈ t :=
    (hperm.mem_iff).mpr (blank_mem_goalState size hs)
  obtain ⟨heLt, heVal⟩ := blankIdx_spec size t hmemE
  set e := blankIdx size t with hedef
  have hmb := neighbor_lt_ne size e m (by omega) hm
  have hss : succState size t e m = swapTiles t e m := by
    unfold succState swapTiles
    rw [heVal]
  have hvne : t.getD m 0 ≠ size * size := by
    intro h
    exact hmb.2 (nodup_getD_inj t hnd m e (by omega) heLt (by rw [h, heVal]))
  have hlen' : (succState size t e m).length = t.length := by
    rw [hss, swapTiles_length]
  simp only [manhattanPart]
  rw [hlen', list_range_map_sum, list_range_map_sum]
  have hmemRange : ∀ i, i < t.length → i ∈ Finset.range t.length := fun i hi =>
    Finset.mem_range.mpr hi
  have hErase1 : ∀ (f : Nat → Nat),
      ∑ i ∈ Finset.range t.length, f i
        = (∑ i ∈ ((Finset.range t.length).erase e).erase m, f i) + f m + f e := by
    intro f
    rw [← Finset.sum_erase_add _ _ (hmemRange e (by omega))]
    rw [← Finset.sum_erase_add _ _
      (Finset.mem_erase.mpr ⟨hmb.2, hmemRange m (by omega)⟩)]
  rw [hErase1, hErase1]
  have hcongr : ∀ i ∈ ((Finset.range t.length).erase e).erase m,
      (if (succState size t e m).getD i 0 = size * size then 0
        else tileDist size i ((succState size t e m).getD i 0))
      = (if t.getD i 0 = size * size then 0
        else tileDist size i (t.getD i 0)) := by
    intro i hi
    have him : i ≠ m := (Finset.mem_erase.mp hi).1
    have hie : i ≠ e := (Finset.mem_erase.mp (Finset.mem_erase.mp hi).2).1
    rw [hss, getD_swapTiles_other t e m i hie him]
  rw [Finset.sum_congr rfl hcongr]
  have hgm : (succState size t e m).getD m 0 = size * size := by
    rw [hss, getD_swapTiles_right t e m (by omega), heVal]
  have hge : (succState size t e m).getD e 0 = t.getD m 0 := by
    rw [hss, getD_swapTiles_left t e m hmb.2.symm (by omega)]
  have hFm : (if (succState size t e m).getD m 0 = size * size then 0
      else tileDist size m ((succState size t e m).getD m 0)) = 0 := by
    rw [hgm]
    simp
  have hFe : (if (succState size t e m).getD e 0 = size * size then 0
      else tileDist size e ((succState size t e m).getD e 0))
      = tileDist size e (t.getD m 0) := by
    rw [hge]
    exact if_neg hvne
  have hFm0 : (if t.getD m 0 = size * size then 0
      else tileDist size m (t.getD m 0)) = tileDist size m (t.getD m 0) :=
    if_neg hvne
  have hFe0 : (if t.getD e 0 = size * size then 0
      else tileDist size e (t.getD e 0)) = 0 := by
    rw [heVal]
    simp
  rw [hFm, hFe, hFm0, hFe0]
  have hbound := tileDist_adjacent size e m (t.getD m 0) (by omega) hm
  omega

/-- C2, amended.  The Manhattan-distance component of the heuristic never
exceeds the true number of moves: any legal move sequence from a reachable
board to the goal is at least `manhattanPart` long.  (The full heuristic
with the pairwise linear-conflict penalty is not admissible, see the
counterexample.) -/
theorem manhattanPart_admissible (size : Nat) (s : List Nat) (n : Nat)
    (hs : 1 ≤ size) (hperm : s.Perm (goalState size))
    (hpath : PathTo size (goalState size) s n) :
    manhattanPart size s ≤ n := by
  induction hpath with
  | refl => rw [manhattanPart_goalState]
  | @step t k m hm hrest ih =>
    have hlen : t.length = size * size := by
      rw [hperm.length_eq, goalState_length]
    have hmemE : size * size ∈ t :=
      (hperm.mem_iff).mpr (blank_mem_goalState size hs)
    obtain ⟨heLt, heVal⟩ := blankIdx_spec size t hmemE
    have hmb := neighbor_lt_ne size (blankIdx size t) m (by omega) hm
    have hss : succState size t (blankIdx size t) m
        = swapTiles t (blankIdx size t) m := by
      unfold succState swapTiles
      rw [heVal]
    have hperm' : (succState size t (blankIdx size t) m).Perm (goalState size) := by
      rw [hss]
      exact (swapTiles_perm t _ m (fun h => hmb.2 h.symm) (by omega)
        (by omega)).trans hperm
    have hstep := manhattanPart_step size t m hs hperm hm
    have := ih hperm'
    omega

/-- Witness for the amended C2 at the solved 3×3 board. -/
theorem manhattanPart_admissible_witness :
    manhattanPart 3 (goalState 3) ≤ 0 :=
  manhattanPart_admissible 3 (goalState 3) 0 (by decide) (List.Perm.refl _)
    PathTo.refl

/-- The goal-board conjunct of the optimality claim: on a board already in
the goal arrangement `calculateMinMoves` returns `0`, by the source's
early `startKey === goalKey` return.  (The optimality conjunct itself is
neither proved nor refuted here: the heuristic is inadmissible — see
`heuristicMin_not_admissible` — so no admissibility argument applies, and
exhaustive simulation places the first suboptimal return beyond any board
whose search trace is small enough to evaluate inside a proof.) -/
theorem calculateMinMoves_goal_zero (size : Nat) (timedOut : Nat → Bool) :
    calculateMinMoves size timedOut (goalState size) = 0 := by
  unfold calculateMinMoves calculateMinMovesOutcome
  simp

/-! ## Claim C8: user moves are single blank-adjacent swaps -/

theorem int_tmod_natCast (a b : Nat) :
    Int.tmod (a : Int) (b : Int) = ((a % b : Nat) : Int) := rfl

theorem int_fdiv_neg_one (n : Nat) (hn : 0 < n) :
    Int.fdiv (-1) (n : Int) = -1 := by
  cases n with
  | zero => omega
  | succ k =>
    show Int.fdiv (Int.negSucc 0) (Int.ofNat (k + 1)) = -1
    simp [Int.fdiv, Nat.zero_div]

theorem int_tmod_neg_one (n : Nat) (hn : 2 ≤ n) :
    Int.tmod (-1) (n : Int) = -1 := by
  cases n with
  | zero => omega
  | succ k =>
    show Int.tmod (Int.negSucc 0) (Int.ofNat (k + 1)) = -1
    have h1 : 1 % (k + 1) = 1 := Nat.mod_eq_of_lt (by omega)
    simp [Int.tmod, h1]

theorem listIndexOf_some_spec :
    ∀ (l : List Nat) (a i : Nat), listIndexOf a l = some i →
      i < l.length ∧ l.getD i 0 = a
  | [], a, i, h => by simp [listIndexOf] at h
  | b :: t, a, i, h => by
    by_cases hba : b = a
    · simp only [listIndexOf, if_pos hba, Option.some.injEq] at h
      subst h
      exact ⟨by simp, by simpa using hba⟩
    · simp only [listIndexOf, if_neg hba] at h
      cases hio : listIndexOf a t with
      | none => rw [hio] at h; exact absurd h (by simp)
      | some j =>
        rw [hio] at h
        simp only [Option.some.injEq] at h
        subst h
        obtain ⟨h1, h2⟩ := listIndexOf_some_spec t a j hio
        exact ⟨by simp; omega, by simpa using h2⟩

/-- Case analysis of an accepted or rejected click: the board is either
unchanged, or it is exactly the swap of the clicked tile's cell with the
grid-adjacent blank cell. -/
theorem handleTileClickDirect_cases (size : Nat) (s : List Nat)
    (tileNum : Nat) (hs : 2 ≤ size) (hperm : s.Perm (goalState size)) :
    handleTileClickDirect size s tileNum = s ∨
    ∃ t, t < s.length ∧ s.getD t 0 = tileNum ∧ tileNum ≠ size * size ∧
      t ≠ blankIdx size s ∧ gridAdjacent size t (blankIdx size s) ∧
      handleTileClickDirect size s tileNum
        = swapTiles s t (blankIdx size s) := by
  have hlen : s.length = size * size := by
    rw [hperm.length_eq, goalState_length]
  have hmemE : size * size ∈ s :=
    (hperm.mem_iff).mpr (blank_mem_goalState size (by omega))
  obtain ⟨heLt, heVal⟩ := blankIdx_spec size s hmemE
  by_cases hbl : tileNum = size * size
  · left
    simp [handleTileClickDirect, hbl]
  · rw [handleTileClickDirect, if_neg hbl]
    cases hio : listIndexOf tileNum s with
    | none =>
      left
      have hfalse : isAdjacentMove size s tileNum = false := by
        rw [Bool.eq_false_iff]
        intro htrue
        simp only [isAdjacentMove, hio] at htrue
        rw [int_fdiv_neg_one size (by omega), int_tmod_neg_one size hs,
          int_fdiv_natCast, int_tmod_natCast] at htrue
        simp only [Bool.or_eq_true, Bool.and_eq_true, beq_iff_eq] at htrue
        obtain ⟨er, her⟩ : ∃ x, blankIdx size s / size = x := ⟨_, rfl⟩
        obtain ⟨ec, hec⟩ : ∃ x, blankIdx size s % size = x := ⟨_, rfl⟩
        rw [her, hec] at htrue
        omega
      rw [hfalse]
      simp
    | some t =>
      obtain ⟨htLt, htVal⟩ := listIndexOf_some_spec s tileNum t hio
      have hne : t ≠ blankIdx size s := by
        intro h
        rw [h, heVal] at htVal
        exact hbl htVal.symm
      by_cases hadj : isAdjacentMove size s tileNum = true
      · right
        refine ⟨t, htLt, htVal, hbl, hne, ?_, ?_⟩
        · simp only [isAdjacentMove, hio] at hadj
          rw [int_fdiv_natCast, int_fdiv_natCast, int_tmod_natCast,
            int_tmod_natCast] at hadj
          simp only [Bool.or_eq_true, Bool.and_eq_true, beq_iff_eq] at hadj
          rw [gridAdjacent]
          obtain ⟨tr, htr⟩ : ∃ x, t / size = x := ⟨_, rfl⟩
          obtain ⟨tc, htc⟩ : ∃ x, t % size = x := ⟨_, rfl⟩
          obtain ⟨er, her⟩ : ∃ x, blankIdx size s / size = x := ⟨_, rfl⟩
          obtain ⟨ec, hec⟩ : ∃ x, blankIdx size s % size = x := ⟨_, rfl⟩
          rw [htr, htc, her, hec] at hadj ⊢
          omega
        · rw [if_pos hadj]
          simp only [moveTile, hio]
          rw [if_pos (Int.ofNat_nonneg t), Int.toNat_natCast, swapTiles,
            heVal, htVal]
      · left
        rw [Bool.not_eq_true] at hadj
        rw [hadj]
        simp

/-- A click, accepted or not, keeps the board a permutation of the goal
arrangement. -/
theorem handleTileClickDirect_perm (size : Nat) (s : List Nat)
    (tileNum : Nat) (hs : 2 ≤ size) (hperm : s.Perm (goalState size)) :
    (handleTileClickDirect size s tileNum).Perm (goalState size) := by
  rcases handleTileClickDirect_cases size s tileNum hs hperm with h | ⟨t, ht, _, _, hne, _, heq⟩
  · rw [h]
    exact hperm
  · rw [heq]
    have hmemE : size * size ∈ s :=
      (hperm.mem_iff).mpr (blank_mem_goalState size (by omega))
    obtain ⟨heLt, _⟩ := blankIdx_spec size s hmemE
    exact (swapTiles_perm s t (blankIdx size s) hne ht heLt).trans hperm

/-- C8.  Every accepted click swaps the blank with exactly one
grid-adjacent tile (same row and adjacent column, or same column and
adjacent row), leaves every other cell unchanged, and any sequence of
clicks keeps the array a permutation of `{1, …, N²}` with exactly one
blank. -/
theorem user_moves_single_adjacent_swap (size : Nat) (s : List Nat)
    (tileNum : Nat) (hs : 2 ≤ size) (hperm : s.Perm (goalState size)) :
    (handleTileClickDirect size s tileNum).Perm (goalState size) ∧
    (∀ clicks : List Nat,
      (clicks.foldl (handleTileClickDirect size) s).Perm (goalState size) ∧
      (clicks.foldl (handleTileClickDirect size) s).count (size * size)
        = 1) ∧
    (handleTileClickDirect size s tileNum = s ∨
      ∃ t, t < s.length ∧ s.getD t 0 = tileNum ∧ tileNum ≠ size * size ∧
        gridAdjacent size t (blankIdx size s) ∧
        (handleTileClickDirect size s tileNum).getD t 0 = size * size ∧
        (handleTileClickDirect size s tileNum).getD (blankIdx size s) 0
          = tileNum ∧
        ∀ i, i ≠ t → i ≠ blankIdx size s →
          (handleTileClickDirect size s tileNum).getD i 0 = s.getD i 0) := by
  have hmemE : size * size ∈ s :=
    (hperm.mem_iff).mpr (blank_mem_goalState size (by omega))
  obtain ⟨heLt, heVal⟩ := blankIdx_spec size s hmemE
  refine ⟨handleTileClickDirect_perm size s tileNum hs hperm, ?_, ?_⟩
  · intro clicks
    have hfold : ∀ (cs : List Nat) (u : List Nat), u.Perm (goalState size) →
        (cs.foldl (handleTileClickDirect size) u).Perm (goalState size) := by
      intro cs
      induction cs with
      | nil => intro u hu; exact hu
      | cons c rest ih =>
        intro u hu
        exact ih _ (handleTileClickDirect_perm size u c hs hu)
    have hp := hfold clicks s hperm
    refine ⟨hp, ?_⟩
    rw [hp.count_eq]
    exact count_goalState_blank size (by omega)
  · rcases handleTileClickDirect_cases size s tileNum hs hperm with
      h | ⟨t, ht, htv, hblk, hne, hgrid, heq⟩
    · exact Or.inl h
    · refine Or.inr ⟨t, ht, htv, hblk, hgrid, ?_, ?_, ?_⟩
      · rw [heq, getD_swapTiles_left s t _ hne ht, heVal]
      · rw [heq, getD_swapTiles_right s t _ heLt, htv]
      · intro i hit hie
        rw [heq, getD_swapTiles_other s t _ i hit hie]

/-- Witness for C8: clicking tile 6 on the solved 3×3 board (blank at
cell 8, tile 6 directly above it). -/
theorem user_moves_single_adjacent_swap_witness :
    (handleTileClickDirect 3 (goalState 3) 6).Perm (goalState 3) ∧
    (∀ clicks : List Nat,
      (clicks.foldl (handleTileClickDirect 3) (goalState 3)).Perm
        (goalState 3) ∧
      (clicks.foldl (handleTileClickDirect 3) (goalState 3)).count (3 * 3)
        = 1) ∧
    (handleTileClickDirect 3 (goalState 3) 6 = goalState 3 ∨
      ∃ t, t < (goalState 3).length ∧ (goalState 3).getD t 0 = 6 ∧
        (6 : Nat) ≠ 3 * 3 ∧ gridAdjacent 3 t (blankIdx 3 (goalState 3)) ∧
        (handleTileClickDirect 3 (goalState 3) 6).getD t 0 = 3 * 3 ∧
        (handleTileClickDirect 3 (goalState 3) 6).getD
          (blankIdx 3 (goalState 3)) 0 = 6 ∧
        ∀ i, i ≠ t → i ≠ blankIdx 3 (goalState 3) →
          (handleTileClickDirect 3 (goalState 3) 6).getD i 0
            = (goalState 3).getD i 0) :=
  user_moves_single_adjacent_swap 3 (goalState 3) 6 (by decide)
    (List.Perm.refl _)

end Puzzle8
